import Mathlib

/-!
Shallow embedding of `src/advanced-vector/vector.h`: a raw-memory arena
(`RawMemory`) plus a sequence container (`Vector`) layered on top of it.

Modelling conventions, used uniformly below:

* A raw block of `n` element slots is a `List (Option α)` of length `n`;
  `none` is an uninitialized slot, `some x` a slot holding a live element of
  value `x`.  `RawMemory`'s `capacity_` field of the source always equals the
  length of its allocated block, so the model stores only the block and
  derives `Capacity` as its length.
* Element moves transfer the value and leave the source slot alive holding a
  residual value `mv x`, where `mv : α → α` is the (opaque) moved-from
  residue of the element type's move constructor; `mv = id` is exact for
  trivially copyable types.
* Undefined behaviour (reading or destroying a non-live slot, addressing a
  slot outside the block, an invalid iterator range, a failed `assert`) is
  modelled by returning `none` from the operation.
* `size_t` subtraction that can wrap is modelled with an explicit `% 2^64`.
* The compile-time `if constexpr` dispatch on
  `std::is_nothrow_move_constructible_v<T> || !std::is_copy_constructible_v<T>`
  is modelled by a `Traits` record carrying the two type-trait booleans.
* Mutating operations also return the number of raw allocations they perform
  (`RawMemory(n)` allocates iff `n ≠ 0`), so that reallocation counts are
  observable.
-/

namespace AdvVec

/-- A raw block of element slots: `none` = uninitialized, `some x` = live. -/
abbrev Buf (α : Type) := List (Option α)

/-- Compile-time element-type traits consulted by the growth-and-transfer
code: `std::is_nothrow_move_constructible_v<T>` and
`std::is_copy_constructible_v<T>`. -/
structure Traits where
  nothrowMove : Bool
  copyable : Bool
deriving DecidableEq, Repr

/-- The condition of the source's `if constexpr` at lines 261 and 319:
`std::is_nothrow_move_constructible_v<T> || !std::is_copy_constructible_v<T>`. -/
def Traits.useMove (t : Traits) : Bool :=
  t.nothrowMove || !t.copyable

/-- `size_t` subtraction `a - b` with wraparound (64-bit), used where the
source subtracts from an unsigned size. -/
def sub64 (a b : ℕ) : ℕ :=
  (2 ^ 64 + a - b) % 2 ^ 64

/-- Reading the slot at index `i`: the address must lie inside the block. -/
def slotGet (b : Buf α) (i : ℕ) : Option (Option α) :=
  if i < b.length then b[i]? else none

/-- Reading the live element at index `i` (UB if out of range or not live). -/
def readLive (b : Buf α) (i : ℕ) : Option α :=
  match slotGet b i with
  | some (some x) => some x
  | _ => none

/-- Placement-new of value `x` into slot `i` (UB if the address is outside
the block). -/
def constructAt (b : Buf α) (i : ℕ) (x : α) : Option (Buf α) :=
  if i < b.length then some (b.set i (some x)) else none

/-- Assignment of value `x` into slot `i`: the slot must hold a live element
(assigning through a pointer to a dead slot is UB). -/
def assignAt (b : Buf α) (i : ℕ) (x : α) : Option (Buf α) :=
  match slotGet b i with
  | some (some _) => some (b.set i (some x))
  | _ => none

/-- Running the destructor on the slot at index `i`: the slot must hold a
live element (destroying a non-object is UB). -/
def destroyAt (b : Buf α) (i : ℕ) : Option (Buf α) :=
  match slotGet b i with
  | some (some _) => some (b.set i none)
  | _ => none

/-- `std::destroy_n(addr + start, n)`: destroys the `n` elements at
`[start, start + n)` in order. -/
def destroyN (b : Buf α) (start n : ℕ) : Option (Buf α) :=
  match n with
  | 0 => some b
  | m + 1 =>
    match destroyAt b start with
    | some b2 => destroyN b2 (start + 1) m
    | none => none

/-- `std::uninitialized_value_construct_n(addr + start, n)` with `dflt` the
value produced by the element type's default constructor. -/
def constructDefaultN (b : Buf α) (start n : ℕ) (dflt : α) : Option (Buf α) :=
  match n with
  | 0 => some b
  | m + 1 =>
    match constructAt b start dflt with
    | some b2 => constructDefaultN b2 (start + 1) m dflt
    | none => none

/-- `std::uninitialized_copy_n(src + s0, n, dst + d0)`: copy-constructs the
`n` live elements of `src` at `[s0, s0+n)` into `dst` at `[d0, d0+n)`;
the source block is not modified. -/
def uninitCopyN (src : Buf α) (s0 n : ℕ) (dst : Buf α) (d0 : ℕ) :
    Option (Buf α) :=
  match n with
  | 0 => some dst
  | m + 1 =>
    match readLive src s0 with
    | some x =>
      match constructAt dst d0 x with
      | some d2 => uninitCopyN src (s0 + 1) m d2 (d0 + 1)
      | none => none
    | none => none

/-- `std::uninitialized_move_n(src + s0, n, dst + d0)`: move-constructs the
`n` live elements of `src` into `dst`; each source slot is left alive
holding the residual value `mv x`.  Returns `(src, dst)` after the
transfer. -/
def uninitMoveN (mv : α → α) (src : Buf α) (s0 n : ℕ) (dst : Buf α)
    (d0 : ℕ) : Option (Buf α × Buf α) :=
  match n with
  | 0 => some (src, dst)
  | m + 1 =>
    match readLive src s0 with
    | some x =>
      match constructAt dst d0 x with
      | some d2 => uninitMoveN mv (src.set s0 (some (mv x))) (s0 + 1) m d2 (d0 + 1)
      | none => none
    | none => none

/-- `std::copy_n(src + s0, n, dst + d0)`: per-element copy assignment into
already-live destination slots. -/
def assignRangeN (src : Buf α) (s0 n : ℕ) (dst : Buf α) (d0 : ℕ) :
    Option (Buf α) :=
  match n with
  | 0 => some dst
  | m + 1 =>
    match readLive src s0 with
    | some x =>
      match assignAt dst d0 x with
      | some d2 => assignRangeN src (s0 + 1) m d2 (d0 + 1)
      | none => none
    | none => none

/-- `std::move(b + src, b + src + n, b + dst)`: forward per-element move
assignment within one block; each source slot is left holding `mv x`
before the next element is processed (sequenced as in the source). -/
def moveRangeN (mv : α → α) (b : Buf α) (src dst n : ℕ) : Option (Buf α) :=
  match n with
  | 0 => some b
  | m + 1 =>
    match readLive b src with
    | some x =>
      match assignAt (b.set src (some (mv x))) dst x with
      | some b2 => moveRangeN mv b2 (src + 1) (dst + 1) m
      | none => none
    | none => none

/-- `std::move_backward(b + first, b + first + n, b + dlast)`: moves the `n`
elements `[first, first + n)` one block rightward ending at `dlast`,
working backward from the end. -/
def moveBackwardN (mv : α → α) (b : Buf α) (first n dlast : ℕ) :
    Option (Buf α) :=
  match n with
  | 0 => some b
  | m + 1 =>
    match readLive b (first + m) with
    | some x =>
      match assignAt (b.set (first + m) (some (mv x))) (dlast - 1) x with
      | some b2 => moveBackwardN mv b2 first m (dlast - 1)
      | none => none
    | none => none

/-- The raw-memory owner (`RawMemory<T>`, lines 9-86): an untyped block of
`capacity_` element slots.  `capacity_` always equals the length of the
allocated block, so the model stores the block alone. -/
structure RawMemory (α : Type) where
  buffer_ : Buf α
deriving DecidableEq, Repr

/-- `RawMemory::Capacity()` (line 69). -/
def RawMemory.Capacity (m : RawMemory α) : ℕ :=
  m.buffer_.length

/-- `RawMemory::Allocate(n)` wrapped by `RawMemory(size_t capacity)`
(lines 14-17, 75-77): `n` fresh uninitialized slots; allocates from the
heap iff `n ≠ 0`.  The second component is the number of raw allocations
performed. -/
def RawMemory.alloc (α : Type) (n : ℕ) : RawMemory α × ℕ :=
  (⟨List.replicate n none⟩, if n = 0 then 0 else 1)

/-- The sequence container (`Vector<T>`, lines 88-326). -/
structure Vector (α : Type) where
  data_ : RawMemory α
  size_ : ℕ
deriving DecidableEq, Repr

/-- The slots of the vector's arena. -/
def Vector.slots (v : Vector α) : Buf α :=
  v.data_.buffer_

/-- `Vector::Size()` (line 180). -/
def Vector.Size (v : Vector α) : ℕ :=
  v.size_

/-- `Vector::Capacity()` (line 184). -/
def Vector.Capacity (v : Vector α) : ℕ :=
  v.data_.Capacity

/-- The live contents of the vector: the slots `[0, size_)`. -/
def Vector.contents (v : Vector α) : Buf α :=
  v.slots.take v.size_

/-- `Vector()` (line 94): default construction, no arena. -/
def Vector.mkEmpty (α : Type) : Vector α :=
  ⟨⟨[]⟩, 0⟩

/-- The class invariant of the container (spec §3): `size_ ≤ capacity`,
slots `[0, size_)` live, slots `[size_, capacity)` uninitialized; sizes fit
in `size_t`. -/
def Vector.WF (v : Vector α) : Prop :=
  v.size_ ≤ v.slots.length ∧ v.slots.length < 2 ^ 64 ∧
    (∀ i, i < v.size_ → (∃ x, slotGet v.slots i = some (some x))) ∧
    (∀ i, i < v.slots.length → (v.size_ ≤ i → slotGet v.slots i = some none))

instance liveSlotDecidable (b : Buf α) (i : ℕ) :
    Decidable (∃ x, slotGet b i = some (some x)) :=
  match slotGet b i with
  | some (some x) => isTrue ⟨x, rfl⟩
  | some none => isFalse (by
      intro hex
      obtain ⟨x, hx⟩ := hex
      injection hx with hx
      exact Option.noConfusion hx)
  | none => isFalse (by
      intro hex
      obtain ⟨x, hx⟩ := hex
      exact Option.noConfusion hx)

instance wfDecidable [DecidableEq α] (v : Vector α) : Decidable v.WF := by
  unfold Vector.WF
  infer_instance


/-- `Vector::Destroy()` (lines 314-316): `std::destroy_n(data_.GetAddress(), size_)`. -/
def Vector.Destroy (v : Vector α) : Option (Buf α) :=
  destroyN v.slots 0 v.size_

/-- `Vector::Reallocate(new_data)` (lines 318-325), with the branch chosen
by the `if constexpr` on the element traits.  Returns the old block, the
new block, and whether the move branch was taken. -/
def Vector.Reallocate (t : Traits) (mv : α → α) (v : Vector α)
    (newBuf : Buf α) : Option (Buf α × Buf α × Bool) :=
  if t.useMove then
    match uninitMoveN mv v.slots 0 v.size_ newBuf 0 with
    | some (s2, d2) => some (s2, d2, true)
    | none => none
  else
    match uninitCopyN v.slots 0 v.size_ newBuf 0 with
    | some d2 => some (v.slots, d2, false)
    | none => none

/-- `Vector::Reserve(new_capacity)` (lines 188-196).  Returns the new state
and the number of raw allocations. -/
def Vector.Reserve (t : Traits) (mv : α → α) (v : Vector α) (newCap : ℕ) :
    Option (Vector α × ℕ) :=
  if newCap ≤ v.Capacity then some (v, 0)
  else
    match v.Reallocate t mv (RawMemory.alloc α newCap).1.buffer_ with
    | some (s2, d2, _) =>
      match destroyN s2 0 v.size_ with
      | some _ => some (⟨⟨d2⟩, v.size_⟩, (RawMemory.alloc α newCap).2)
      | none => none
    | none => none

/-- `Vector::Resize(new_size)` (lines 198-209); `dflt` is the element
type's default-constructed value. -/
def Vector.Resize (t : Traits) (mv : α → α) (dflt : α) (v : Vector α)
    (newSize : ℕ) : Option (Vector α × ℕ) :=
  if v.size_ = newSize then some (v, 0)
  else if newSize < v.size_ then
    match destroyN v.slots newSize (v.size_ - newSize) with
    | some b2 => some (⟨⟨b2⟩, newSize⟩, 0)
    | none => none
  else
    match v.Reserve t mv newSize with
    | some (v1, a) =>
      match constructDefaultN v1.slots v.size_ (newSize - v.size_) dflt with
      | some b2 => some (⟨⟨b2⟩, newSize⟩, a)
      | none => none
    | none => none

/-- The new capacity chosen by every growth path:
`size_ == 0 ? 1 : size_ * 2`. -/
def growCap (size : ℕ) : ℕ :=
  if size = 0 then 1 else size * 2

/-- `Vector::PushBack(const T&)` (lines 211-223). -/
def Vector.PushBack (t : Traits) (mv : α → α) (v : Vector α) (x : α) :
    Option (Vector α × ℕ) :=
  if v.Capacity = v.size_ then
    match constructAt (RawMemory.alloc α (growCap v.size_)).1.buffer_
        v.size_ x with
    | some nd1 =>
      match v.Reallocate t mv nd1 with
      | some (s2, d2, _) =>
        match destroyN s2 0 v.size_ with
        | some _ =>
          some (⟨⟨d2⟩, v.size_ + 1⟩, (RawMemory.alloc α (growCap v.size_)).2)
        | none => none
      | none => none
    | none => none
  else
    match constructAt v.slots v.size_ x with
    | some b2 => some (⟨⟨b2⟩, v.size_ + 1⟩, 0)
    | none => none

/-- `Vector::PushBack(T&&)` (lines 225-237): identical shape; the incoming
value is move-constructed into the new slot (the moved-from argument lives
outside the container, so only the value transfer is visible here). -/
def Vector.PushBackMove (t : Traits) (mv : α → α) (v : Vector α) (x : α) :
    Option (Vector α × ℕ) :=
  if v.Capacity = v.size_ then
    match constructAt (RawMemory.alloc α (growCap v.size_)).1.buffer_
        v.size_ x with
    | some nd1 =>
      match v.Reallocate t mv nd1 with
      | some (s2, d2, _) =>
        match destroyN s2 0 v.size_ with
        | some _ =>
          some (⟨⟨d2⟩, v.size_ + 1⟩, (RawMemory.alloc α (growCap v.size_)).2)
        | none => none
      | none => none
    | none => none
  else
    match constructAt v.slots v.size_ x with
    | some b2 => some (⟨⟨b2⟩, v.size_ + 1⟩, 0)
    | none => none

/-- `Vector::EmplaceBack(args...)` (lines 239-253); `x` is the value the
element constructor produces from the arguments. -/
def Vector.EmplaceBack (t : Traits) (mv : α → α) (v : Vector α) (x : α) :
    Option (Vector α × ℕ) :=
  if v.Capacity = v.size_ then
    match constructAt (RawMemory.alloc α (growCap v.size_)).1.buffer_
        v.size_ x with
    | some nd1 =>
      match v.Reallocate t mv nd1 with
      | some (s2, d2, _) =>
        match destroyN s2 0 v.size_ with
        | some _ =>
          some (⟨⟨d2⟩, v.size_ + 1⟩, (RawMemory.alloc α (growCap v.size_)).2)
        | none => none
      | none => none
    | none => none
  else
    match constructAt v.slots v.size_ x with
    | some b2 => some (⟨⟨b2⟩, v.size_ + 1⟩, 0)
    | none => none

/-- `Vector::Emplace(pos, args...)` (lines 255-280); `p = pos - begin()`
and `x` is the value the element constructor produces.  The growth path
constructs the new element at index `p` of the new block, then transfers
the prefix `[0, p)` and the suffix `[p, size_)` with the compile-time
move/copy dispatch.  The non-growth path constructs a temporary, move
constructs `data_[size_ - 1]` into the slot at `size_` (the index
`size_ - 1` computed in `size_t`), shifts `[p, size_ - 1)` rightward with
`std::move_backward` (whose range is valid only when `p ≤ size_ - 1`), and
move-assigns the temporary into slot `p`. -/
def Vector.Emplace (t : Traits) (mv : α → α) (v : Vector α) (p : ℕ)
    (x : α) : Option (Vector α × ℕ) :=
  if v.Capacity = v.size_ then
    match constructAt (RawMemory.alloc α (growCap v.size_)).1.buffer_
        p x with
    | some nd1 =>
      if t.useMove then
        match uninitMoveN mv v.slots 0 p nd1 0 with
        | some (s1, d1) =>
          match uninitMoveN mv s1 p (v.size_ - p) d1 (p + 1) with
          | some (s2, d2) =>
            match destroyN s2 0 v.size_ with
            | some _ =>
              some (⟨⟨d2⟩, v.size_ + 1⟩,
                (RawMemory.alloc α (growCap v.size_)).2)
            | none => none
          | none => none
        | none => none
      else
        match uninitCopyN v.slots 0 p nd1 0 with
        | some d1 =>
          match uninitCopyN v.slots p (v.size_ - p) d1 (p + 1) with
          | some d2 =>
            match destroyN v.slots 0 v.size_ with
            | some _ =>
              some (⟨⟨d2⟩, v.size_ + 1⟩,
                (RawMemory.alloc α (growCap v.size_)).2)
            | none => none
          | none => none
        | none => none
    | none => none
  else
    match readLive v.slots (sub64 v.size_ 1) with
    | some last =>
      match constructAt (v.slots.set (sub64 v.size_ 1) (some (mv last)))
          v.size_ last with
      | some b1 =>
        if p ≤ v.size_ - 1 then
          match moveBackwardN mv b1 p (v.size_ - 1 - p) v.size_ with
          | some b2 =>
            match assignAt b2 p x with
            | some b3 => some (⟨⟨b3⟩, v.size_ + 1⟩, 0)
            | none => none
          | none => none
        else none
      | none => none
    | none => none

/-- `Vector::Insert(pos, const T&)` (lines 290-292): delegates to `Emplace`. -/
def Vector.Insert (t : Traits) (mv : α → α) (v : Vector α) (p : ℕ)
    (x : α) : Option (Vector α × ℕ) :=
  v.Emplace t mv p x

/-- `Vector::Erase(pos)` (lines 282-288): `std::move` the elements after
`pos` one slot leftward (a valid range requires `p + 1 ≤ size_`), destroy
the vacated last slot, decrement `size_`. -/
def Vector.Erase (mv : α → α) (v : Vector α) (p : ℕ) :
    Option (Vector α × ℕ) :=
  if p + 1 ≤ v.size_ then
    match moveRangeN mv v.slots (p + 1) p (v.size_ - (p + 1)) with
    | some b1 =>
      match destroyAt b1 (v.size_ - 1) with
      | some b2 => some (⟨⟨b2⟩, v.size_ - 1⟩, 0)
      | none => none
    | none => none
  else none

/-- `Vector::PopBack()` (lines 298-303), exactly as written:
`std::destroy_n(data_.GetAddress() + size_, 1)` destroys the slot at index
`size_` (not `size_ - 1`). -/
def Vector.PopBack (v : Vector α) : Option (Vector α × ℕ) :=
  if v.size_ ≠ 0 then
    match destroyN v.slots v.size_ 1 with
    | some b2 => some (⟨⟨b2⟩, v.size_ - 1⟩, 0)
    | none => none
  else some (v, 0)

/-- `Vector::Swap(other)` (lines 305-308): exchanges arena and size. -/
def Vector.SwapOp (v w : Vector α) : Vector α × Vector α :=
  (⟨w.data_, w.size_⟩, ⟨v.data_, v.size_⟩)

/-- `Vector(const Vector&)` (lines 103-108): a fresh arena of `other.size_`
slots, then `uninitialized_copy_n` of the elements. -/
def Vector.CopyCtor (other : Vector α) : Option (Vector α × ℕ) :=
  match uninitCopyN other.slots 0 other.size_
      (RawMemory.alloc α other.size_).1.buffer_ 0 with
  | some d2 => some (⟨⟨d2⟩, other.size_⟩, (RawMemory.alloc α other.size_).2)
  | none => none

/-- `Vector(Vector&&)` (lines 110-113): `data_` (default constructed, the
null block) is overwritten by move from `other.data_`, which leaves
`other` with a null block; `size_ = std::exchange(other.size_, 0)`.
Returns (the new vector, what `other` becomes). -/
def Vector.MoveCtor (other : Vector α) : Vector α × Vector α :=
  (⟨other.data_, other.size_⟩, ⟨⟨[]⟩, 0⟩)

/-- `Vector(size_t)` (lines 96-101): arena of `size` slots,
value-construct each; `dflt` is the default-constructed value. -/
def Vector.MkSized (α : Type) (dflt : α) (n : ℕ) : Option (Vector α × ℕ) :=
  match constructDefaultN (RawMemory.alloc α n).1.buffer_ 0 n dflt with
  | some b2 => some (⟨⟨b2⟩, n⟩, (RawMemory.alloc α n).2)
  | none => none

/-- The body of `operator=(const Vector&)` for two distinct objects
(lines 153-168).  When `rhs.size_ > Capacity()` a full copy is built and
swapped in, after which the temporary's destructor destroys this object's
old elements (and frees its block).  Otherwise the overlapping prefix is
copy-assigned and the excess tail destroyed or copy-constructed. -/
def Vector.CopyAssignNe (v rhs : Vector α) : Option (Vector α × ℕ) :=
  if v.Capacity < rhs.size_ then
    match Vector.CopyCtor rhs with
    | some (c, a) =>
      match destroyN v.slots 0 v.size_ with
      | some _ => some (c, a)
      | none => none
    | none => none
  else
    match assignRangeN rhs.slots 0 (min v.size_ rhs.size_) v.slots 0 with
    | some b1 =>
      if rhs.size_ < v.size_ then
        match destroyN b1 rhs.size_ (v.size_ - rhs.size_) with
        | some b2 => some (⟨⟨b2⟩, rhs.size_⟩, 0)
        | none => none
      else
        match uninitCopyN rhs.slots v.size_ (rhs.size_ - v.size_) b1 v.size_ with
        | some b2 => some (⟨⟨b2⟩, rhs.size_⟩, 0)
        | none => none
    | none => none

/-- `operator=(const Vector&)` (lines 152-170); `same` models the address
guard `this == &rhs` (when `same` holds, `rhs` is this very object and the
body is skipped). -/
def Vector.CopyAssign (same : Bool) (v rhs : Vector α) :
    Option (Vector α × ℕ) :=
  if same then some (v, 0) else v.CopyAssignNe rhs

/-- `operator=(Vector&&)` (lines 172-178) together with
`RawMemory::operator=(RawMemory&&)` (lines 27-31), exactly as written:
`buffer_ = std::exchange(rhs.buffer_, nullptr)` overwrites this object's
block pointer without destroying its elements or deallocating its block.
Returns (the new lhs, what rhs becomes, the abandoned old block of the
lhs — dropped with its elements still live and never deallocated).
`same` models the address guard `this == &rhs`. -/
def Vector.MoveAssign (same : Bool) (v rhs : Vector α) :
    Vector α × Vector α × Buf α :=
  if same then (v, rhs, [])
  else (⟨rhs.data_, rhs.size_⟩, ⟨⟨[]⟩, 0⟩, v.slots)

end AdvVec

namespace AdvVec

/-!
Exception model: element construction and assignment can throw.  An oracle
`o : ℕ → Bool` together with a running event counter `k` decides the fate of
each fallible event (a raw allocation, a copy construction, a construction
from `emplace` arguments, and — only when the element type's move operations
can throw — a move construction or move assignment): event number `k`
succeeds iff `o k`.  `ExcOut` reports either the normal result, or the state
of `*this` at the point an exception propagated out, or UB; destructors are
`noexcept` and never consume events.
-/

/-- Outcome of an operation under the exception model. -/
inductive ExcOut (α : Type) where
  | ok (v : Vector α) (k : ℕ)
  | thrown (v : Vector α) (k : ℕ)
  | ub
deriving DecidableEq, Repr

/-- Exception-aware `std::uninitialized_copy_n`: each copy construction is
one fallible event.  On an exception the algorithm destroys the elements it
already constructed (the destination block reverts), the source is
untouched, and the error carries only the counter. -/
def uninitCopyExcN (o : ℕ → Bool) (src : Buf α) (s0 n : ℕ) (dst : Buf α)
    (d0 k : ℕ) : Option (Except ℕ (Buf α × ℕ)) :=
  match n with
  | 0 => some (.ok (dst, k))
  | m + 1 =>
    match readLive src s0 with
    | some x =>
      if !o k then some (.error (k + 1))
      else
        match constructAt dst d0 x with
        | some d2 => uninitCopyExcN o src (s0 + 1) m d2 (d0 + 1) (k + 1)
        | none => none
    | none => none

/-- Exception-aware `std::uninitialized_move_n`: a move construction is a
fallible event iff `fallible` (i.e. iff the element type's move construction
can throw); an infallible move consumes no event.  A completed move leaves
the source slot holding the residue `mv x`; a failing one throws before
completing, leaving its own source unchanged — but the sources already
moved stay moved-from, so the error carries the partially-residued source
block. -/
def uninitMoveExcN (mv : α → α) (o : ℕ → Bool) (fallible : Bool)
    (src : Buf α) (s0 n : ℕ) (dst : Buf α) (d0 k : ℕ) :
    Option (Except (Buf α × ℕ) (Buf α × Buf α × ℕ)) :=
  match n with
  | 0 => some (.ok (src, dst, k))
  | m + 1 =>
    match readLive src s0 with
    | some x =>
      if fallible && !o k then some (.error (src, k + 1))
      else
        match constructAt dst d0 x with
        | some d2 =>
          uninitMoveExcN mv o fallible (src.set s0 (some (mv x))) (s0 + 1) m
            d2 (d0 + 1) (if fallible then k + 1 else k)
        | none => none
    | none => none

/-- Exception-aware `std::copy_n` (per-element copy assignment): each
assignment is a fallible event; a failure mid-way leaves the destination
partially assigned (basic guarantee), so the error carries the partial
destination. -/
def assignExcN (o : ℕ → Bool) (src : Buf α) (s0 n : ℕ) (dst : Buf α)
    (d0 k : ℕ) : Option (Except (Buf α × ℕ) (Buf α × ℕ)) :=
  match n with
  | 0 => some (.ok (dst, k))
  | m + 1 =>
    match readLive src s0 with
    | some x =>
      if !o k then some (.error (dst, k + 1))
      else
        match assignAt dst d0 x with
        | some d2 => assignExcN o src (s0 + 1) m d2 (d0 + 1) (k + 1)
        | none => none
    | none => none

/-- Exception-aware `std::move_backward`: move assignments, fallible iff the
element type's move operations can throw (the model does not track a
separate move-assignment trait). -/
def moveBackwardExcN (mv : α → α) (o : ℕ → Bool) (fallible : Bool)
    (b : Buf α) (first n dlast k : ℕ) :
    Option (Except (Buf α × ℕ) (Buf α × ℕ)) :=
  match n with
  | 0 => some (.ok (b, k))
  | m + 1 =>
    match readLive b (first + m) with
    | some x =>
      if fallible && !o k then some (.error (b, k + 1))
      else
        match assignAt (b.set (first + m) (some (mv x))) (dlast - 1) x with
        | some b2 =>
          moveBackwardExcN mv o fallible b2 first m (dlast - 1)
            (if fallible then k + 1 else k)
        | none => none
    | none => none

/-- Exception-aware `Vector::Reallocate` (lines 318-325): the move branch's
moves are fallible iff move construction can throw; the copy branch leaves
the source untouched and an exception there carries the unchanged source. -/
def Vector.ReallocateExc (t : Traits) (mv : α → α) (o : ℕ → Bool)
    (v : Vector α) (newBuf : Buf α) (k : ℕ) :
    Option (Except (Buf α × ℕ) (Buf α × Buf α × ℕ)) :=
  if t.useMove then
    uninitMoveExcN mv o (!t.nothrowMove) v.slots 0 v.size_ newBuf 0 k
  else
    match uninitCopyExcN o v.slots 0 v.size_ newBuf 0 k with
    | some (.ok (d2, k2)) => some (.ok (v.slots, d2, k2))
    | some (.error k2) => some (.error (v.slots, k2))
    | none => none

/-- Exception-aware `Vector::Reserve` (lines 188-196).  The allocation of
the new block is the first fallible event (the growth branch always
allocates, since `new_capacity > capacity ≥ 0`); on any exception before
`data_.Swap(new_data)` the members of `*this` have not been written. -/
def Vector.ReserveExc (t : Traits) (mv : α → α) (o : ℕ → Bool)
    (v : Vector α) (newCap k : ℕ) : ExcOut α :=
  if newCap ≤ v.Capacity then .ok v k
  else if !o k then .thrown v (k + 1)
  else
    match v.ReallocateExc t mv o (List.replicate newCap none) (k + 1) with
    | some (.error (s2, k2)) => .thrown ⟨⟨s2⟩, v.size_⟩ k2
    | some (.ok (s2, d2, k2)) =>
      match destroyN s2 0 v.size_ with
      | some _ => .ok ⟨⟨d2⟩, v.size_⟩ k2
      | none => .ub
    | none => .ub

/-- Exception-aware `Vector::PushBack(const T&)` (lines 211-223): in the
growth branch, the allocation and then the copy construction of `value`
into the new block precede the transfer; all fallible events precede
`Destroy(); data_.Swap(new_data); size_++`. -/
def Vector.PushBackExc (t : Traits) (mv : α → α) (o : ℕ → Bool)
    (v : Vector α) (x : α) (k : ℕ) : ExcOut α :=
  if v.Capacity = v.size_ then
    if !o k then .thrown v (k + 1)
    else if !o (k + 1) then .thrown v (k + 2)
    else
      match constructAt (List.replicate (growCap v.size_) none) v.size_ x with
      | some nd1 =>
        match v.ReallocateExc t mv o nd1 (k + 2) with
        | some (.error (s2, k2)) => .thrown ⟨⟨s2⟩, v.size_⟩ k2
        | some (.ok (s2, d2, k2)) =>
          match destroyN s2 0 v.size_ with
          | some _ => .ok ⟨⟨d2⟩, v.size_ + 1⟩ k2
          | none => .ub
        | none => .ub
      | none => .ub
  else
    if !o k then .thrown v (k + 1)
    else
      match constructAt v.slots v.size_ x with
      | some b2 => .ok ⟨⟨b2⟩, v.size_ + 1⟩ (k + 1)
      | none => .ub

/-- Exception-aware `Vector::PushBack(T&&)` (lines 225-237): as the copy
variant, but the incoming value is move-constructed, which is fallible iff
the element type's move construction can throw. -/
def Vector.PushBackMoveExc (t : Traits) (mv : α → α) (o : ℕ → Bool)
    (v : Vector α) (x : α) (k : ℕ) : ExcOut α :=
  if v.Capacity = v.size_ then
    if !o k then .thrown v (k + 1)
    else if !t.nothrowMove && !o (k + 1) then .thrown v (k + 2)
    else
      match constructAt (List.replicate (growCap v.size_) none) v.size_ x with
      | some nd1 =>
        match v.ReallocateExc t mv o nd1
            (if t.nothrowMove then k + 1 else k + 2) with
        | some (.error (s2, k2)) => .thrown ⟨⟨s2⟩, v.size_⟩ k2
        | some (.ok (s2, d2, k2)) =>
          match destroyN s2 0 v.size_ with
          | some _ => .ok ⟨⟨d2⟩, v.size_ + 1⟩ k2
          | none => .ub
        | none => .ub
      | none => .ub
  else
    if !t.nothrowMove && !o k then .thrown v (k + 1)
    else
      match constructAt v.slots v.size_ x with
      | some b2 => .ok ⟨⟨b2⟩, v.size_ + 1⟩ (if t.nothrowMove then k else k + 1)
      | none => .ub

/-- Exception-aware `Vector::EmplaceBack(args...)` (lines 239-253): the
construction of the new element from its arguments is a fallible event. -/
def Vector.EmplaceBackExc (t : Traits) (mv : α → α) (o : ℕ → Bool)
    (v : Vector α) (x : α) (k : ℕ) : ExcOut α :=
  if v.Capacity = v.size_ then
    if !o k then .thrown v (k + 1)
    else if !o (k + 1) then .thrown v (k + 2)
    else
      match constructAt (List.replicate (growCap v.size_) none) v.size_ x with
      | some nd1 =>
        match v.ReallocateExc t mv o nd1 (k + 2) with
        | some (.error (s2, k2)) => .thrown ⟨⟨s2⟩, v.size_⟩ k2
        | some (.ok (s2, d2, k2)) =>
          match destroyN s2 0 v.size_ with
          | some _ => .ok ⟨⟨d2⟩, v.size_ + 1⟩ k2
          | none => .ub
        | none => .ub
      | none => .ub
  else
    if !o k then .thrown v (k + 1)
    else
      match constructAt v.slots v.size_ x with
      | some b2 => .ok ⟨⟨b2⟩, v.size_ + 1⟩ (k + 1)
      | none => .ub

/-- Exception-aware `Vector::Emplace(pos, args...)` (lines 255-280).  In the
growth branch, allocation, the construction of the new element at its
target index, and the prefix and suffix transfers all precede
`Destroy(); data_.Swap(new_data); size_++`.  In the non-growth branch the
exception points are the temporary's construction, the move construction
into the slot at `size_`, the `std::move_backward` move assignments and the
final move assignment; a throw there leaves the partially shifted block
with `size_` not yet incremented (basic guarantee only). -/
def Vector.EmplaceExc (t : Traits) (mv : α → α) (o : ℕ → Bool)
    (v : Vector α) (p : ℕ) (x : α) (k : ℕ) : ExcOut α :=
  if v.Capacity = v.size_ then
    if !o k then .thrown v (k + 1)
    else if !o (k + 1) then .thrown v (k + 2)
    else
      match constructAt (List.replicate (growCap v.size_) none) p x with
      | some nd1 =>
        if t.useMove then
          match uninitMoveExcN mv o (!t.nothrowMove) v.slots 0 p nd1 0 (k + 2) with
          | some (.error (s1, k1)) => .thrown ⟨⟨s1⟩, v.size_⟩ k1
          | some (.ok (s1, d1, k1)) =>
            match uninitMoveExcN mv o (!t.nothrowMove) s1 p (v.size_ - p) d1
                (p + 1) k1 with
            | some (.error (s2, k2)) => .thrown ⟨⟨s2⟩, v.size_⟩ k2
            | some (.ok (s2, d2, k2)) =>
              match destroyN s2 0 v.size_ with
              | some _ => .ok ⟨⟨d2⟩, v.size_ + 1⟩ k2
              | none => .ub
            | none => .ub
          | none => .ub
        else
          match uninitCopyExcN o v.slots 0 p nd1 0 (k + 2) with
          | some (.error k1) => .thrown v k1
          | some (.ok (d1, k1)) =>
            match uninitCopyExcN o v.slots p (v.size_ - p) d1 (p + 1) k1 with
            | some (.error k2) => .thrown v k2
            | some (.ok (d2, k2)) =>
              match destroyN v.slots 0 v.size_ with
              | some _ => .ok ⟨⟨d2⟩, v.size_ + 1⟩ k2
              | none => .ub
            | none => .ub
          | none => .ub
      | none => .ub
  else
    if !o k then .thrown v (k + 1)
    else
      match readLive v.slots (sub64 v.size_ 1) with
      | some last =>
        if !t.nothrowMove && !o (k + 1) then .thrown v (k + 2)
        else
          match constructAt (v.slots.set (sub64 v.size_ 1) (some (mv last)))
              v.size_ last with
          | some b1 =>
            if p ≤ v.size_ - 1 then
              match moveBackwardExcN mv o (!t.nothrowMove) b1 p
                  (v.size_ - 1 - p) v.size_
                  (if t.nothrowMove then k + 1 else k + 2) with
              | some (.error (b2, k2)) => .thrown ⟨⟨b2⟩, v.size_⟩ k2
              | some (.ok (b2, k2)) =>
                if !t.nothrowMove && !o k2 then .thrown ⟨⟨b2⟩, v.size_⟩ (k2 + 1)
                else
                  match assignAt b2 p x with
                  | some b3 =>
                    .ok ⟨⟨b3⟩, v.size_ + 1⟩ (if t.nothrowMove then k2 else k2 + 1)
                  | none => .ub
              | none => .ub
            else .ub
          | none => .ub
      | none => .ub

/-- Exception-aware `operator=(const Vector&)` for distinct objects
(lines 153-168).  In the reallocating branch all fallible events (the
allocation and the element copies of `Vector rhs_copy(rhs)`) happen before
`Swap(rhs_copy)` touches `*this`; in the in-place branch a failing copy
assignment leaves the prefix partially assigned. -/
def Vector.CopyAssignExcNe (o : ℕ → Bool) (v rhs : Vector α) (k : ℕ) :
    ExcOut α :=
  if v.Capacity < rhs.size_ then
    if !o k then .thrown v (k + 1)
    else
      match uninitCopyExcN o rhs.slots 0 rhs.size_
          (List.replicate rhs.size_ none) 0 (k + 1) with
      | some (.error k2) => .thrown v k2
      | some (.ok (d2, k2)) =>
        match destroyN v.slots 0 v.size_ with
        | some _ => .ok ⟨⟨d2⟩, rhs.size_⟩ k2
        | none => .ub
      | none => .ub
  else
    match assignExcN o rhs.slots 0 (min v.size_ rhs.size_) v.slots 0 k with
    | some (.error (b1, k1)) => .thrown ⟨⟨b1⟩, v.size_⟩ k1
    | some (.ok (b1, k1)) =>
      if rhs.size_ < v.size_ then
        match destroyN b1 rhs.size_ (v.size_ - rhs.size_) with
        | some b2 => .ok ⟨⟨b2⟩, rhs.size_⟩ k1
        | none => .ub
      else
        match uninitCopyExcN o rhs.slots v.size_ (rhs.size_ - v.size_) b1
            v.size_ k1 with
        | some (.error k2) => .thrown ⟨⟨b1⟩, v.size_⟩ k2
        | some (.ok (b2, k2)) => .ok ⟨⟨b2⟩, rhs.size_⟩ k2
        | none => .ub
      | none => .ub

/-- The growth-triggering operations named by the spec's strong-guarantee
clause. -/
inductive GrowthOp (α : Type) where
  | reserveOp (newCap : ℕ)
  | pushBackOp (x : α)
  | pushBackMoveOp (x : α)
  | emplaceBackOp (x : α)
  | emplaceOp (p : ℕ) (x : α)
deriving DecidableEq, Repr

/-- Run one growth operation under the exception model. -/
def RunGrowthExc (t : Traits) (mv : α → α) (o : ℕ → Bool) (v : Vector α) :
    GrowthOp α → ℕ → ExcOut α
  | .reserveOp n, k => v.ReserveExc t mv o n k
  | .pushBackOp x, k => v.PushBackExc t mv o x k
  | .pushBackMoveOp x, k => v.PushBackMoveExc t mv o x k
  | .emplaceBackOp x, k => v.EmplaceBackExc t mv o x k
  | .emplaceOp p x, k => v.EmplaceExc t mv o p x k

/-- Whether the operation actually takes a growth path: `Reserve` mutates
nothing unless it grows, while the insertion family grows exactly when
`size == capacity`. -/
def GrowthOp.triggers (op : GrowthOp α) (v : Vector α) : Prop :=
  match op with
  | .reserveOp _ => True
  | _ => v.Capacity = v.size_

/-! Characterization lemmas for the slot-level helpers. -/

theorem slotGet_eq (b : Buf α) (i : ℕ) : slotGet b i = b[i]? := by
  unfold slotGet
  split
  · rfl
  · exact (List.getElem?_eq_none (Nat.le_of_not_lt (by assumption))).symm

theorem lt_length_of_getElem? {b : Buf α} {i : ℕ} {s : Option α}
    (h : b[i]? = some s) : i < b.length := by
  by_contra hlt
  rw [List.getElem?_eq_none (Nat.le_of_not_lt hlt)] at h
  exact Option.noConfusion h

theorem readLive_eq {b : Buf α} {i : ℕ} {x : α}
    (h : b[i]? = some (some x)) : readLive b i = some x := by
  unfold readLive
  rw [slotGet_eq, h]

theorem constructAt_eq (b : Buf α) {i : ℕ} (x : α) (h : i < b.length) :
    constructAt b i x = some (b.set i (some x)) := by
  unfold constructAt
  rw [if_pos h]

theorem constructAt_some {b b2 : Buf α} {i : ℕ} {x : α}
    (h : constructAt b i x = some b2) :
    i < b.length ∧ b2 = b.set i (some x) := by
  unfold constructAt at h
  split at h
  · exact ⟨by assumption, (Option.some.inj h).symm⟩
  · exact Option.noConfusion h

theorem assignAt_eq {b : Buf α} {i : ℕ} {y : α} (x : α)
    (h : b[i]? = some (some y)) :
    assignAt b i x = some (b.set i (some x)) := by
  have hs : slotGet b i = some (some y) := by rw [slotGet_eq]; exact h
  unfold assignAt
  rw [hs]

theorem assignAt_some {b b2 : Buf α} {i : ℕ} {x : α}
    (h : assignAt b i x = some b2) :
    i < b.length ∧ b2 = b.set i (some x) := by
  unfold assignAt at h
  rcases hs : slotGet b i with _ | s
  · rw [hs] at h; exact Option.noConfusion h
  · rcases s with _ | y
    · rw [hs] at h; exact Option.noConfusion h
    · rw [hs] at h
      rw [slotGet_eq] at hs
      exact ⟨lt_length_of_getElem? hs, (Option.some.inj h).symm⟩

theorem destroyAt_eq {b : Buf α} {i : ℕ} {y : α}
    (h : b[i]? = some (some y)) :
    destroyAt b i = some (b.set i none) := by
  have hs : slotGet b i = some (some y) := by rw [slotGet_eq]; exact h
  unfold destroyAt
  rw [hs]

theorem destroyAt_some {b b2 : Buf α} {i : ℕ}
    (h : destroyAt b i = some b2) :
    i < b.length ∧ b2 = b.set i none := by
  unfold destroyAt at h
  rcases hs : slotGet b i with _ | s
  · rw [hs] at h; exact Option.noConfusion h
  · rcases s with _ | y
    · rw [hs] at h; exact Option.noConfusion h
    · rw [hs] at h
      rw [slotGet_eq] at hs
      exact ⟨lt_length_of_getElem? hs, (Option.some.inj h).symm⟩

theorem destroyN_length {b b2 : Buf α} {start n : ℕ}
    (h : destroyN b start n = some b2) : b2.length = b.length := by
  induction n generalizing b start with
  | zero =>
    simp only [destroyN] at h
    injection h with h
    rw [← h]
  | succ m ih =>
    simp only [destroyN] at h
    rcases hd : destroyAt b start with _ | b1
    · rw [hd] at h; exact Option.noConfusion h
    · rw [hd] at h
      rw [ih h, (destroyAt_some hd).2, List.length_set]

theorem destroyN_spec {b : Buf α} {start n : ℕ}
    (hlen : start + n ≤ b.length)
    (hlive : ∀ j, start ≤ j → j < start + n → ∃ x, b[j]? = some (some x)) :
    ∃ b2, destroyN b start n = some b2 ∧ b2.length = b.length ∧
      ∀ j, b2[j]? = if start ≤ j ∧ j < start + n then some none else b[j]? := by
  induction n generalizing b start with
  | zero =>
    refine ⟨b, by simp [destroyN], rfl, ?_⟩
    intro j
    rw [if_neg (by omega)]
  | succ m ih =>
    obtain ⟨x, hx⟩ := hlive start le_rfl (by omega)
    have hd : destroyAt b start = some (b.set start none) := destroyAt_eq hx
    have hlive2 : ∀ j, start + 1 ≤ j → j < start + 1 + m →
        ∃ y, (b.set start none)[j]? = some (some y) := by
      intro j h1 h2
      rw [List.getElem?_set_ne (by omega)]
      exact hlive j (by omega) (by omega)
    obtain ⟨b2, hrun, hlen2, hchar⟩ :=
      @ih (b.set start none) (start + 1)
        (by rw [List.length_set]; omega) hlive2
    refine ⟨b2, ?_, by rw [hlen2, List.length_set], ?_⟩
    · simp only [destroyN]
      rw [hd]
      exact hrun
    · intro j
      rw [hchar j]
      by_cases h1 : start + 1 ≤ j ∧ j < start + 1 + m
      · rw [if_pos h1, if_pos (by omega)]
      · rw [if_neg h1]
        by_cases h2 : j = start
        · subst h2
          rw [if_pos (by omega), List.getElem?_set_self (by omega)]
        · rw [List.getElem?_set_ne (by omega), if_neg (by omega)]

theorem constructDefaultN_length {b b2 : Buf α} {start n : ℕ} {dflt : α}
    (h : constructDefaultN b start n dflt = some b2) :
    b2.length = b.length := by
  induction n generalizing b start with
  | zero =>
    simp only [constructDefaultN] at h
    injection h with h
    rw [← h]
  | succ m ih =>
    simp only [constructDefaultN] at h
    rcases hd : constructAt b start dflt with _ | b1
    · rw [hd] at h; exact Option.noConfusion h
    · rw [hd] at h
      rw [ih h, (constructAt_some hd).2, List.length_set]

theorem constructDefaultN_spec {b : Buf α} {start n : ℕ} {dflt : α}
    (hlen : start + n ≤ b.length) :
    ∃ b2, constructDefaultN b start n dflt = some b2 ∧
      b2.length = b.length ∧
      ∀ j, b2[j]? = if start ≤ j ∧ j < start + n then some (some dflt)
        else b[j]? := by
  induction n generalizing b start with
  | zero =>
    refine ⟨b, by simp [constructDefaultN], rfl, ?_⟩
    intro j
    rw [if_neg (by omega)]
  | succ m ih =>
    have hc : constructAt b start dflt = some (b.set start (some dflt)) :=
      constructAt_eq b dflt (by omega)
    obtain ⟨b2, hrun, hlen2, hchar⟩ :=
      @ih (b.set start (some dflt)) (start + 1)
        (by rw [List.length_set]; omega)
    refine ⟨b2, ?_, by rw [hlen2, List.length_set], ?_⟩
    · simp only [constructDefaultN]
      rw [hc]
      exact hrun
    · intro j
      rw [hchar j]
      by_cases h1 : start + 1 ≤ j ∧ j < start + 1 + m
      · rw [if_pos h1, if_pos (by omega)]
      · rw [if_neg h1]
        by_cases h2 : j = start
        · subst h2
          rw [if_pos (by omega), List.getElem?_set_self (by omega)]
        · rw [List.getElem?_set_ne (by omega), if_neg (by omega)]

theorem uninitCopyN_length {src : Buf α} {s0 n : ℕ} {dst d2 : Buf α}
    {d0 : ℕ} (h : uninitCopyN src s0 n dst d0 = some d2) :
    d2.length = dst.length := by
  induction n generalizing s0 dst d0 with
  | zero =>
    simp only [uninitCopyN] at h
    injection h with h
    rw [← h]
  | succ m ih =>
    simp only [uninitCopyN] at h
    split at h
    · split at h
      · next d1 hc => rw [ih h, (constructAt_some hc).2, List.length_set]
      · exact Option.noConfusion h
    · exact Option.noConfusion h

theorem uninitCopyN_spec {src : Buf α} {s0 n : ℕ} {dst : Buf α} {d0 : ℕ}
    (hsrc : ∀ i, i < n → ∃ x, src[s0 + i]? = some (some x))
    (hdst : d0 + n ≤ dst.length) :
    ∃ d2, uninitCopyN src s0 n dst d0 = some d2 ∧ d2.length = dst.length ∧
      ∀ j, d2[j]? = if d0 ≤ j ∧ j < d0 + n then src[s0 + (j - d0)]?
        else dst[j]? := by
  induction n generalizing s0 dst d0 with
  | zero =>
    refine ⟨dst, by simp [uninitCopyN], rfl, ?_⟩
    intro j
    rw [if_neg (by omega)]
  | succ m ih =>
    obtain ⟨x, hx⟩ := hsrc 0 (Nat.succ_pos m)
    rw [Nat.add_zero] at hx
    have hr : readLive src s0 = some x := readLive_eq hx
    have hc : constructAt dst d0 x = some (dst.set d0 (some x)) :=
      constructAt_eq dst x (by omega)
    have hsrc2 : ∀ i, i < m → ∃ y, src[s0 + 1 + i]? = some (some y) := by
      intro i hi
      obtain ⟨y, hy⟩ := hsrc (i + 1) (by omega)
      refine ⟨y, ?_⟩
      rw [show s0 + 1 + i = s0 + (i + 1) by omega]
      exact hy
    obtain ⟨d2, hrun, hlen2, hchar⟩ :=
      @ih (s0 + 1) (dst.set d0 (some x)) (d0 + 1) hsrc2
        (by rw [List.length_set]; omega)
    refine ⟨d2, ?_, by rw [hlen2, List.length_set], ?_⟩
    · simp only [uninitCopyN, hr, hc]
      exact hrun
    · intro j
      rw [hchar j]
      by_cases h1 : d0 + 1 ≤ j ∧ j < d0 + 1 + m
      · rw [if_pos h1, if_pos (by omega)]
        rw [show s0 + 1 + (j - (d0 + 1)) = s0 + (j - d0) by omega]
      · rw [if_neg h1]
        by_cases h2 : j = d0
        · subst h2
          rw [if_pos (by omega), List.getElem?_set_self (by omega),
            Nat.sub_self, Nat.add_zero]
          exact hx.symm
        · rw [List.getElem?_set_ne (by omega), if_neg (by omega)]

theorem uninitMoveN_length {mv : α → α} {src : Buf α} {s0 n : ℕ}
    {dst s2 d2 : Buf α} {d0 : ℕ}
    (h : uninitMoveN mv src s0 n dst d0 = some (s2, d2)) :
    s2.length = src.length ∧ d2.length = dst.length := by
  induction n generalizing src s0 dst d0 with
  | zero =>
    simp only [uninitMoveN] at h
    injection h with h
    rw [Prod.mk.injEq] at h
    exact ⟨by rw [← h.1], by rw [← h.2]⟩
  | succ m ih =>
    simp only [uninitMoveN] at h
    split at h
    · split at h
      · next d1 hc =>
        obtain ⟨h1, h2⟩ := ih h
        rw [List.length_set] at h1
        rw [(constructAt_some hc).2, List.length_set] at h2
        exact ⟨h1, h2⟩
      · exact Option.noConfusion h
    · exact Option.noConfusion h

theorem uninitMoveN_spec {mv : α → α} {src : Buf α} {s0 n : ℕ}
    {dst : Buf α} {d0 : ℕ}
    (hsrc : ∀ i, i < n → ∃ x, src[s0 + i]? = some (some x))
    (hdst : d0 + n ≤ dst.length) :
    ∃ s2 d2, uninitMoveN mv src s0 n dst d0 = some (s2, d2) ∧
      s2.length = src.length ∧ d2.length = dst.length ∧
      (∀ j, d2[j]? = if d0 ≤ j ∧ j < d0 + n then src[s0 + (j - d0)]?
        else dst[j]?) ∧
      (∀ j, s2[j]? = if s0 ≤ j ∧ j < s0 + n
        then Option.map (Option.map mv) src[j]? else src[j]?) := by
  induction n generalizing src s0 dst d0 with
  | zero =>
    refine ⟨src, dst, by simp [uninitMoveN], rfl, rfl, ?_, ?_⟩
    · intro j
      rw [if_neg (by omega)]
    · intro j
      rw [if_neg (by omega)]
  | succ m ih =>
    obtain ⟨x, hx⟩ := hsrc 0 (Nat.succ_pos m)
    rw [Nat.add_zero] at hx
    have hr : readLive src s0 = some x := readLive_eq hx
    have hc : constructAt dst d0 x = some (dst.set d0 (some x)) :=
      constructAt_eq dst x (by omega)
    have hsrc2 : ∀ i, i < m →
        ∃ y, (src.set s0 (some (mv x)))[s0 + 1 + i]? = some (some y) := by
      intro i hi
      rw [List.getElem?_set_ne (by omega)]
      obtain ⟨y, hy⟩ := hsrc (i + 1) (by omega)
      refine ⟨y, ?_⟩
      rw [show s0 + 1 + i = s0 + (i + 1) by omega]
      exact hy
    obtain ⟨s2, d2, hrun, hslen, hdlen, hdchar, hschar⟩ :=
      @ih (src.set s0 (some (mv x))) (s0 + 1) (dst.set d0 (some x))
        (d0 + 1) hsrc2 (by rw [List.length_set]; omega)
    refine ⟨s2, d2, ?_, by rw [hslen, List.length_set],
      by rw [hdlen, List.length_set], ?_, ?_⟩
    · simp only [uninitMoveN, hr, hc]
      exact hrun
    · intro j
      rw [hdchar j]
      by_cases h1 : d0 + 1 ≤ j ∧ j < d0 + 1 + m
      · rw [if_pos h1, if_pos (by omega),
          List.getElem?_set_ne (by omega),
          show s0 + 1 + (j - (d0 + 1)) = s0 + (j - d0) by omega]
      · rw [if_neg h1]
        by_cases h2 : j = d0
        · subst h2
          rw [if_pos (by omega), List.getElem?_set_self (by omega),
            Nat.sub_self, Nat.add_zero]
          exact hx.symm
        · rw [List.getElem?_set_ne (by omega), if_neg (by omega)]
    · intro j
      rw [hschar j]
      by_cases h1 : s0 + 1 ≤ j ∧ j < s0 + 1 + m
      · rw [if_pos h1, if_pos (by omega), List.getElem?_set_ne (by omega)]
      · rw [if_neg h1]
        by_cases h2 : j = s0
        · subst h2
          rw [if_pos (by omega),
            List.getElem?_set_self (lt_length_of_getElem? hx), hx]
          rfl
        · rw [List.getElem?_set_ne (by omega), if_neg (by omega)]

theorem assignRangeN_length {src : Buf α} {s0 n : ℕ} {dst d2 : Buf α}
    {d0 : ℕ} (h : assignRangeN src s0 n dst d0 = some d2) :
    d2.length = dst.length := by
  induction n generalizing s0 dst d0 with
  | zero =>
    simp only [assignRangeN] at h
    injection h with h
    rw [← h]
  | succ m ih =>
    simp only [assignRangeN] at h
    split at h
    · split at h
      · next d1 hc => rw [ih h, (assignAt_some hc).2, List.length_set]
      · exact Option.noConfusion h
    · exact Option.noConfusion h

theorem assignRangeN_spec {src : Buf α} {s0 n : ℕ} {dst : Buf α} {d0 : ℕ}
    (hsrc : ∀ i, i < n → ∃ x, src[s0 + i]? = some (some x))
    (hdst : ∀ i, i < n → ∃ y, dst[d0 + i]? = some (some y)) :
    ∃ d2, assignRangeN src s0 n dst d0 = some d2 ∧
      d2.length = dst.length ∧
      ∀ j, d2[j]? = if d0 ≤ j ∧ j < d0 + n then src[s0 + (j - d0)]?
        else dst[j]? := by
  induction n generalizing s0 dst d0 with
  | zero =>
    refine ⟨dst, by simp [assignRangeN], rfl, ?_⟩
    intro j
    rw [if_neg (by omega)]
  | succ m ih =>
    obtain ⟨x, hx⟩ := hsrc 0 (Nat.succ_pos m)
    rw [Nat.add_zero] at hx
    obtain ⟨y, hy⟩ := hdst 0 (Nat.succ_pos m)
    rw [Nat.add_zero] at hy
    have hr : readLive src s0 = some x := readLive_eq hx
    have ha : assignAt dst d0 x = some (dst.set d0 (some x)) :=
      assignAt_eq x hy
    have hsrc2 : ∀ i, i < m → ∃ z, src[s0 + 1 + i]? = some (some z) := by
      intro i hi
      obtain ⟨z, hz⟩ := hsrc (i + 1) (by omega)
      refine ⟨z, ?_⟩
      rw [show s0 + 1 + i = s0 + (i + 1) by omega]
      exact hz
    have hdst2 : ∀ i, i < m →
        ∃ z, (dst.set d0 (some x))[d0 + 1 + i]? = some (some z) := by
      intro i hi
      rw [List.getElem?_set_ne (by omega)]
      obtain ⟨z, hz⟩ := hdst (i + 1) (by omega)
      refine ⟨z, ?_⟩
      rw [show d0 + 1 + i = d0 + (i + 1) by omega]
      exact hz
    obtain ⟨d2, hrun, hlen2, hchar⟩ :=
      @ih (s0 + 1) (dst.set d0 (some x)) (d0 + 1) hsrc2 hdst2
    refine ⟨d2, ?_, by rw [hlen2, List.length_set], ?_⟩
    · simp only [assignRangeN, hr, ha]
      exact hrun
    · intro j
      rw [hchar j]
      by_cases h1 : d0 + 1 ≤ j ∧ j < d0 + 1 + m
      · rw [if_pos h1, if_pos (by omega),
          show s0 + 1 + (j - (d0 + 1)) = s0 + (j - d0) by omega]
      · rw [if_neg h1]
        by_cases h2 : j = d0
        · subst h2
          rw [if_pos (by omega),
            List.getElem?_set_self (lt_length_of_getElem? hy),
            Nat.sub_self, Nat.add_zero]
          exact hx.symm
        · rw [List.getElem?_set_ne (by omega), if_neg (by omega)]

theorem moveRangeN_length {mv : α → α} {b b2 : Buf α} {src dst n : ℕ}
    (h : moveRangeN mv b src dst n = some b2) : b2.length = b.length := by
  induction n generalizing b src dst with
  | zero =>
    simp only [moveRangeN] at h
    injection h with h
    rw [← h]
  | succ m ih =>
    simp only [moveRangeN] at h
    split at h
    · split at h
      · next b1 ha =>
        rw [ih h, (assignAt_some ha).2, List.length_set, List.length_set]
      · exact Option.noConfusion h
    · exact Option.noConfusion h

theorem moveBackwardN_length {mv : α → α} {b b2 : Buf α}
    {first n dlast : ℕ} (h : moveBackwardN mv b first n dlast = some b2) :
    b2.length = b.length := by
  induction n generalizing b dlast with
  | zero =>
    simp only [moveBackwardN] at h
    injection h with h
    rw [← h]
  | succ m ih =>
    simp only [moveBackwardN] at h
    split at h
    · split at h
      · next b1 ha =>
        rw [ih h, (assignAt_some ha).2, List.length_set, List.length_set]
      · exact Option.noConfusion h
    · exact Option.noConfusion h

theorem Vector.WF.live {v : Vector α} (h : v.WF) :
    ∀ i, i < v.size_ → ∃ x, v.slots[i]? = some (some x) := by
  intro i hi
  obtain ⟨x, hx⟩ := h.2.2.1 i hi
  rw [slotGet_eq] at hx
  exact ⟨x, hx⟩

theorem Vector.WF.dead {v : Vector α} (h : v.WF) :
    ∀ i, i < v.slots.length → v.size_ ≤ i → v.slots[i]? = some none := by
  intro i hi hle
  have hd := h.2.2.2 i hi hle
  rw [slotGet_eq] at hd
  exact hd

theorem Vector.WF.size_le {v : Vector α} (h : v.WF) :
    v.size_ ≤ v.slots.length :=
  h.1

theorem cap_mk (b : Buf α) (s : ℕ) :
    (⟨⟨b⟩, s⟩ : Vector α).Capacity = b.length :=
  rfl

theorem slots_mk (b : Buf α) (s : ℕ) :
    (⟨⟨b⟩, s⟩ : Vector α).slots = b :=
  rfl

theorem cap_eq_len (v : Vector α) : v.Capacity = v.slots.length :=
  rfl

theorem growCap_eq (s : ℕ) : growCap s = max 1 (2 * s) := by
  unfold growCap
  split <;> omega

theorem Reallocate_length {t : Traits} {mv : α → α} {v : Vector α}
    {newBuf s2 d2 : Buf α} {fl : Bool}
    (h : v.Reallocate t mv newBuf = some (s2, d2, fl)) :
    s2.length = v.slots.length ∧ d2.length = newBuf.length := by
  unfold Vector.Reallocate at h
  split at h
  · split at h
    · next a b hm =>
      simp only [Option.some.injEq, Prod.mk.injEq] at h
      obtain ⟨h1, h2, h3⟩ := h
      subst h1
      subst h2
      exact uninitMoveN_length hm
    · exact Option.noConfusion h
  · split at h
    · next d hcp =>
      simp only [Option.some.injEq, Prod.mk.injEq] at h
      obtain ⟨h1, h2, h3⟩ := h
      subst h1
      subst h2
      exact ⟨rfl, uninitCopyN_length hcp⟩
    · exact Option.noConfusion h

/-- C1.  The claim says `PopBack` destructs the last live element, the one
at index `size_ - 1`.  The code (line 300) instead runs
`std::destroy_n(data_.GetAddress() + size_, 1)`, destroying the slot at
index `size_`: on a vector of size 1 with capacity 2 that slot is
uninitialized, so the destructor runs on a non-object (UB) and the live
element at index 0 is never destructed.  The model returns `none` (UB). -/
theorem C1_PopBack_destroys_wrong_slot :
    Vector.PopBack (⟨⟨[some 5, none]⟩, 1⟩ : Vector ℕ) = none := by
  rfl

/-- C2.  Inserting into an empty vector that has spare capacity (reachable
via `Reserve`), at the only valid position `p = 0`, takes the non-growth
branch of `Emplace` (line 272), which evaluates `data_[size_ - 1]` with
`size_ == 0`: the `size_t` index wraps to `2^64 - 1`, violating
`RawMemory::operator[]`'s own `assert(index < capacity_)` (line 52) — UB,
so the insert／erase round trip of the claim cannot even start.  The model
returns `none` (UB). -/
theorem C2_Emplace_empty_with_capacity_ub :
    Vector.Emplace ⟨true, true⟩ id (⟨⟨[none]⟩, 0⟩ : Vector ℕ) 0 9 = none := by
  rfl

/-- C3.  The claim says move assignment destructs the left side's live
elements and deallocates its block.  The code (lines 172-178 via lines
27-31) executes `buffer_ = std::exchange(rhs.buffer_, nullptr)`, which
simply overwrites the left side's block pointer: its elements are never
destructed and its block is never deallocated (it leaks).  At the failing
input `L = [1]`, `R = [2]`, the abandoned block — the third component —
still holds the live element `1`. -/
theorem C3_MoveAssign_leaks_old_block :
    Vector.MoveAssign false (⟨⟨[some 1]⟩, 1⟩ : Vector ℕ) ⟨⟨[some 2]⟩, 1⟩ =
      (⟨⟨[some 2]⟩, 1⟩, ⟨⟨[]⟩, 0⟩, [some 1]) := by
  rfl

/-- C8.  Move construction (lines 110-113, 22-25): the new vector takes the
source's arena and size unchanged (hence its previous contents, size and
capacity), the source is left with no arena, size 0 and capacity 0, no
element is touched, and the operation is total (`noexcept`). -/
theorem C8_MoveCtor_transfers_ownership (α : Type) (v : Vector α) :
    (Vector.MoveCtor v).1 = v ∧
      (Vector.MoveCtor v).2.size_ = 0 ∧
      (Vector.MoveCtor v).2.Capacity = 0 ∧
      (Vector.MoveCtor v).2.slots = [] := by
  exact ⟨rfl, rfl, rfl, rfl⟩

/-- C9.  The invariant `slots [0, size) live, slots [size, capacity)
uninitialized` is broken by the public-operation sequence
`PushBack 7; PopBack` from an empty vector: `PushBack` yields the
well-formed state `⟨[some 7], 1⟩`, but `PopBack` then destroys the slot at
index `size_ = 1` — past the end of the capacity-1 block — while the live
element at index 0 is never destructed, so after the call `size_ = 0` yet
slot 0 still holds a live element.  The model reports the lifetime
violation as `none` (UB). -/
theorem C9_invariant_broken_by_PopBack :
    Vector.PushBack ⟨true, true⟩ id (Vector.mkEmpty ℕ) 7 =
        some (⟨⟨[some 7]⟩, 1⟩, 1) ∧
      Vector.PopBack (⟨⟨[some 7]⟩, 1⟩ : Vector ℕ) = none := by
  exact ⟨rfl, rfl⟩

/-- C10.  Both assignment operators begin with the address guard
`if (this != &rhs)` (lines 153, 173); on self-assignment (the guard's
`same` flag set, the right-hand side being this very object) the body is
skipped entirely, so size, capacity and elements are unchanged. -/
theorem C10_self_assignment_noop (α : Type) (v : Vector α) :
    Vector.CopyAssign true v v = some (v, 0) ∧
      (Vector.MoveAssign true v v).1 = v ∧
      (Vector.MoveAssign true v v).2.1 = v := by
  exact ⟨rfl, rfl, rfl⟩

theorem growCap_pos (s : ℕ) : 0 < growCap s := by
  unfold growCap
  split <;> omega

theorem PushBackMove_eq_PushBack (t : Traits) (mv : α → α) (v : Vector α)
    (x : α) : v.PushBackMove t mv x = v.PushBack t mv x :=
  rfl

theorem EmplaceBack_eq_PushBack (t : Traits) (mv : α → α) (v : Vector α)
    (x : α) : v.EmplaceBack t mv x = v.PushBack t mv x :=
  rfl

theorem Reserve_caps {t : Traits} {mv : α → α} {v w : Vector α} {n a : ℕ}
    (h : v.Reserve t mv n = some (w, a)) :
    v.Capacity ≤ w.Capacity ∧ a ≤ 1 := by
  unfold Vector.Reserve at h
  split at h
  · simp only [Option.some.injEq, Prod.mk.injEq] at h
    obtain ⟨h1, h2⟩ := h
    subst h1
    subst h2
    exact ⟨le_rfl, by omega⟩
  · next hn =>
    split at h
    · next s2 d2 fl hre =>
      split at h
      · next b hb =>
        simp only [Option.some.injEq, Prod.mk.injEq] at h
        obtain ⟨h1, h2⟩ := h
        subst h1
        have hlen := Reallocate_length hre
        constructor
        · show v.Capacity ≤ d2.length
          rw [hlen.2]
          simp only [RawMemory.alloc, List.length_replicate]
          omega
        · rw [← h2]
          simp only [RawMemory.alloc]
          split <;> omega
      · exact Option.noConfusion h
    · exact Option.noConfusion h

theorem PushBack_caps {t : Traits} {mv : α → α} {v w : Vector α} {x : α}
    {a : ℕ} (h : v.PushBack t mv x = some (w, a)) :
    (v.Capacity = v.size_ → w.Capacity = max 1 (2 * v.Capacity) ∧ a = 1) ∧
      (v.Capacity ≠ v.size_ → w.Capacity = v.Capacity ∧ a = 0) := by
  unfold Vector.PushBack at h
  split at h
  · next hg =>
    refine ⟨fun _ => ?_, fun hne => absurd hg hne⟩
    split at h
    · next nd1 hc =>
      split at h
      · next s2 d2 fl hre =>
        split at h
        · next b hb =>
          simp only [Option.some.injEq, Prod.mk.injEq] at h
          obtain ⟨h1, h2⟩ := h
          subst h1
          have hlen := Reallocate_length hre
          constructor
          · show d2.length = max 1 (2 * v.Capacity)
            rw [hlen.2, (constructAt_some hc).2, List.length_set]
            simp only [RawMemory.alloc, List.length_replicate]
            rw [growCap_eq, hg]
          · rw [← h2]
            simp only [RawMemory.alloc]
            rw [if_neg (by have := growCap_pos v.size_; omega)]
        · exact Option.noConfusion h
      · exact Option.noConfusion h
    · exact Option.noConfusion h
  · next hg =>
    refine ⟨fun hcg => absurd hcg hg, fun _ => ?_⟩
    split at h
    · next b2 hc =>
      simp only [Option.some.injEq, Prod.mk.injEq] at h
      obtain ⟨h1, h2⟩ := h
      subst h1
      refine ⟨?_, h2.symm⟩
      show b2.length = v.Capacity
      rw [(constructAt_some hc).2, List.length_set, cap_eq_len]
    · exact Option.noConfusion h

theorem PushBack_cap_mono {t : Traits} {mv : α → α} {v w : Vector α}
    {x : α} {a : ℕ} (h : v.PushBack t mv x = some (w, a)) :
    v.Capacity ≤ w.Capacity ∧ a ≤ 1 := by
  obtain ⟨h1, h2⟩ := PushBack_caps h
  by_cases hg : v.Capacity = v.size_
  · obtain ⟨hc, ha⟩ := h1 hg
    rw [hc]
    refine ⟨le_trans (by omega) (Nat.le_max_right 1 (2 * v.Capacity)), by omega⟩
  · obtain ⟨hc, ha⟩ := h2 hg
    rw [hc]
    exact ⟨le_rfl, by omega⟩

theorem Resize_caps {t : Traits} {mv : α → α} {dflt : α} {v w : Vector α}
    {n a : ℕ} (h : v.Resize t mv dflt n = some (w, a)) :
    v.Capacity ≤ w.Capacity ∧ a ≤ 1 := by
  unfold Vector.Resize at h
  split at h
  · simp only [Option.some.injEq, Prod.mk.injEq] at h
    obtain ⟨h1, h2⟩ := h
    subst h1
    subst h2
    exact ⟨le_rfl, by omega⟩
  · split at h
    · split at h
      · next b2 hd =>
        simp only [Option.some.injEq, Prod.mk.injEq] at h
        obtain ⟨h1, h2⟩ := h
        subst h1
        subst h2
        refine ⟨?_, by omega⟩
        show v.Capacity ≤ b2.length
        rw [destroyN_length hd, cap_eq_len]
      · exact Option.noConfusion h
    · split at h
      · next v1 a1 hres =>
        split at h
        · next b2 hcd =>
          simp only [Option.some.injEq, Prod.mk.injEq] at h
          obtain ⟨h1, h2⟩ := h
          subst h1
          subst h2
          obtain ⟨hc, ha⟩ := Reserve_caps hres
          refine ⟨?_, ha⟩
          show v.Capacity ≤ b2.length
          rw [constructDefaultN_length hcd, ← cap_eq_len]
          exact hc
        · exact Option.noConfusion h
      · exact Option.noConfusion h

theorem Emplace_caps {t : Traits} {mv : α → α} {v w : Vector α} {p : ℕ}
    {x : α} {a : ℕ} (h : v.Emplace t mv p x = some (w, a)) :
    (v.Capacity = v.size_ → w.Capacity = max 1 (2 * v.Capacity) ∧ a = 1) ∧
      (v.Capacity ≠ v.size_ → w.Capacity = v.Capacity ∧ a = 0) := by
  unfold Vector.Emplace at h
  split at h
  · next hg =>
    refine ⟨fun _ => ?_, fun hne => absurd hg hne⟩
    split at h
    · next nd1 hc =>
      have hnd1 : nd1.length = growCap v.size_ := by
        rw [(constructAt_some hc).2, List.length_set]
        simp only [RawMemory.alloc, List.length_replicate]
      split at h
      · split at h
        · next s1 d1 hm1 =>
          split at h
          · next s2 d2 hm2 =>
            split at h
            · next b hb =>
              simp only [Option.some.injEq, Prod.mk.injEq] at h
              obtain ⟨h1, h2⟩ := h
              subst h1
              constructor
              · show d2.length = max 1 (2 * v.Capacity)
                rw [(uninitMoveN_length hm2).2,
                  (uninitMoveN_length hm1).2, hnd1, growCap_eq, hg]
              · rw [← h2]
                simp only [RawMemory.alloc]
                rw [if_neg (by have := growCap_pos v.size_; omega)]
            · exact Option.noConfusion h
          · exact Option.noConfusion h
        · exact Option.noConfusion h
      · split at h
        · next d1 hc1 =>
          split at h
          · next d2 hc2 =>
            split at h
            · next b hb =>
              simp only [Option.some.injEq, Prod.mk.injEq] at h
              obtain ⟨h1, h2⟩ := h
              subst h1
              constructor
              · show d2.length = max 1 (2 * v.Capacity)
                rw [uninitCopyN_length hc2, uninitCopyN_length hc1,
                  hnd1, growCap_eq, hg]
              · rw [← h2]
                simp only [RawMemory.alloc]
                rw [if_neg (by have := growCap_pos v.size_; omega)]
            · exact Option.noConfusion h
          · exact Option.noConfusion h
        · exact Option.noConfusion h
    · exact Option.noConfusion h
  · next hg =>
    refine ⟨fun hcg => absurd hcg hg, fun _ => ?_⟩
    split at h
    · next last hr =>
      split at h
      · next b1 hc1 =>
        split at h
        · split at h
          · next b2 hmb =>
            split at h
            · next b3 ha3 =>
              simp only [Option.some.injEq, Prod.mk.injEq] at h
              obtain ⟨h1, h2⟩ := h
              subst h1
              refine ⟨?_, h2.symm⟩
              show b3.length = v.Capacity
              rw [(assignAt_some ha3).2, List.length_set,
                moveBackwardN_length hmb, (constructAt_some hc1).2,
                List.length_set, List.length_set, cap_eq_len]
            · exact Option.noConfusion h
          · exact Option.noConfusion h
        · exact Option.noConfusion h
      · exact Option.noConfusion h
    · exact Option.noConfusion h

theorem Emplace_cap_mono {t : Traits} {mv : α → α} {v w : Vector α}
    {p : ℕ} {x : α} {a : ℕ} (h : v.Emplace t mv p x = some (w, a)) :
    v.Capacity ≤ w.Capacity ∧ a ≤ 1 := by
  obtain ⟨h1, h2⟩ := Emplace_caps h
  by_cases hg : v.Capacity = v.size_
  · obtain ⟨hc, ha⟩ := h1 hg
    rw [hc]
    refine ⟨le_trans (by omega) (Nat.le_max_right 1 (2 * v.Capacity)), by omega⟩
  · obtain ⟨hc, ha⟩ := h2 hg
    rw [hc]
    exact ⟨le_rfl, by omega⟩

theorem Erase_caps {mv : α → α} {v w : Vector α} {p a : ℕ}
    (h : v.Erase mv p = some (w, a)) :
    w.Capacity = v.Capacity ∧ a = 0 := by
  unfold Vector.Erase at h
  split at h
  · split at h
    · next b1 hmr =>
      split at h
      · next b2 hda =>
        simp only [Option.some.injEq, Prod.mk.injEq] at h
        obtain ⟨h1, h2⟩ := h
        subst h1
        refine ⟨?_, h2.symm⟩
        show b2.length = v.Capacity
        rw [(destroyAt_some hda).2, List.length_set,
          moveRangeN_length hmr, cap_eq_len]
      · exact Option.noConfusion h
    · exact Option.noConfusion h
  · exact Option.noConfusion h

theorem PopBack_caps {v w : Vector α} {a : ℕ}
    (h : v.PopBack = some (w, a)) :
    w.Capacity = v.Capacity ∧ a = 0 := by
  unfold Vector.PopBack at h
  split at h
  · split at h
    · next b2 hd =>
      simp only [Option.some.injEq, Prod.mk.injEq] at h
      obtain ⟨h1, h2⟩ := h
      subst h1
      refine ⟨?_, h2.symm⟩
      show b2.length = v.Capacity
      rw [destroyN_length hd, cap_eq_len]
    · exact Option.noConfusion h
  · simp only [Option.some.injEq, Prod.mk.injEq] at h
    obtain ⟨h1, h2⟩ := h
    subst h1
    subst h2
    exact ⟨rfl, rfl⟩

theorem CopyAssignNe_caps {v rhs w : Vector α} {a : ℕ}
    (h : v.CopyAssignNe rhs = some (w, a)) :
    v.Capacity ≤ w.Capacity ∧ a ≤ 1 := by
  unfold Vector.CopyAssignNe at h
  split at h
  · next hlt =>
    split at h
    · next c a1 hcc =>
      split at h
      · next b hb =>
        simp only [Option.some.injEq, Prod.mk.injEq] at h
        obtain ⟨h1, h2⟩ := h
        subst h1
        unfold Vector.CopyCtor at hcc
        split at hcc
        · next d2 hcp =>
          simp only [Option.some.injEq, Prod.mk.injEq] at hcc
          obtain ⟨hc1, hc2⟩ := hcc
          subst hc1
          constructor
          · show v.Capacity ≤ d2.length
            rw [uninitCopyN_length hcp]
            simp only [RawMemory.alloc, List.length_replicate]
            omega
          · rw [← h2, ← hc2]
            simp only [RawMemory.alloc]
            split <;> omega
        · exact Option.noConfusion hcc
      · exact Option.noConfusion h
    · exact Option.noConfusion h
  · split at h
    · next b1 har =>
      split at h
      · split at h
        · next b2 hd =>
          simp only [Option.some.injEq, Prod.mk.injEq] at h
          obtain ⟨h1, h2⟩ := h
          subst h1
          refine ⟨?_, by omega⟩
          show v.Capacity ≤ b2.length
          rw [destroyN_length hd, assignRangeN_length har, cap_eq_len]
        · exact Option.noConfusion h
      · split at h
        · next b2 hcp =>
          simp only [Option.some.injEq, Prod.mk.injEq] at h
          obtain ⟨h1, h2⟩ := h
          subst h1
          refine ⟨?_, by omega⟩
          show v.Capacity ≤ b2.length
          rw [uninitCopyN_length hcp, assignRangeN_length har, cap_eq_len]
        · exact Option.noConfusion h
    · exact Option.noConfusion h

/-- C5 counterexample.  The claim "capacity never decreases under any
operation" fails at a concrete input: move-assigning an empty, capacity-0
vector into a vector of capacity 1 (reachable via `Reserve(1)`) replaces
the target's arena wholesale, dropping its capacity from 1 to 0. -/
theorem C5_counterexample_capacity_decreases :
    Vector.Capacity ((Vector.MoveAssign false (⟨⟨[none]⟩, 0⟩ : Vector ℕ)
        ⟨⟨[]⟩, 0⟩).1) = 0 ∧
      Vector.Capacity (⟨⟨[none]⟩, 0⟩ : Vector ℕ) = 1 :=
  ⟨rfl, rfl⟩

/-- C5 (amended).  Excluding the operations that transfer or exchange arena
ownership wholesale (move assignment, move construction, `Swap`), capacity
never decreases under any operation; every operation performs at most one
raw reallocation; and a PushBack/EmplaceBack/Emplace/Insert that triggers
growth (`size == capacity`) reallocates exactly once, to capacity exactly
`max 1 (2 * C)`, while a non-growth one keeps the capacity and does not
reallocate. -/
theorem C5_amended (α : Type) (t : Traits) (mv : α → α) (dflt x : α)
    (v rhs : Vector α) (n p : ℕ) :
    (∀ w a, v.Reserve t mv n = some (w, a) →
      v.Capacity ≤ w.Capacity ∧ a ≤ 1) ∧
    (∀ w a, v.Resize t mv dflt n = some (w, a) →
      v.Capacity ≤ w.Capacity ∧ a ≤ 1) ∧
    (∀ w a, v.PushBack t mv x = some (w, a) →
      v.Capacity ≤ w.Capacity ∧ a ≤ 1 ∧
        (v.Capacity = v.size_ → w.Capacity = max 1 (2 * v.Capacity) ∧ a = 1) ∧
        (v.Capacity ≠ v.size_ → w.Capacity = v.Capacity ∧ a = 0)) ∧
    (∀ w a, v.PushBackMove t mv x = some (w, a) →
      v.Capacity ≤ w.Capacity ∧ a ≤ 1 ∧
        (v.Capacity = v.size_ → w.Capacity = max 1 (2 * v.Capacity) ∧ a = 1) ∧
        (v.Capacity ≠ v.size_ → w.Capacity = v.Capacity ∧ a = 0)) ∧
    (∀ w a, v.EmplaceBack t mv x = some (w, a) →
      v.Capacity ≤ w.Capacity ∧ a ≤ 1 ∧
        (v.Capacity = v.size_ → w.Capacity = max 1 (2 * v.Capacity) ∧ a = 1) ∧
        (v.Capacity ≠ v.size_ → w.Capacity = v.Capacity ∧ a = 0)) ∧
    (∀ w a, v.Emplace t mv p x = some (w, a) →
      v.Capacity ≤ w.Capacity ∧ a ≤ 1 ∧
        (v.Capacity = v.size_ → w.Capacity = max 1 (2 * v.Capacity) ∧ a = 1) ∧
        (v.Capacity ≠ v.size_ → w.Capacity = v.Capacity ∧ a = 0)) ∧
    (∀ w a, v.Insert t mv p x = some (w, a) →
      v.Capacity ≤ w.Capacity ∧ a ≤ 1) ∧
    (∀ w a, v.Erase mv p = some (w, a) →
      w.Capacity = v.Capacity ∧ a = 0) ∧
    (∀ w a, v.PopBack = some (w, a) →
      w.Capacity = v.Capacity ∧ a = 0) ∧
    (∀ w a, v.CopyAssignNe rhs = some (w, a) →
      v.Capacity ≤ w.Capacity ∧ a ≤ 1) := by
  refine ⟨?_, ?_, ?_, ?_, ?_, ?_, ?_, ?_, ?_, ?_⟩
  · intro w a h
    exact Reserve_caps h
  · intro w a h
    exact Resize_caps h
  · intro w a h
    obtain ⟨hm, ha⟩ := PushBack_cap_mono h
    exact ⟨hm, ha, (PushBack_caps h).1, (PushBack_caps h).2⟩
  · intro w a h
    rw [PushBackMove_eq_PushBack] at h
    obtain ⟨hm, ha⟩ := PushBack_cap_mono h
    exact ⟨hm, ha, (PushBack_caps h).1, (PushBack_caps h).2⟩
  · intro w a h
    rw [EmplaceBack_eq_PushBack] at h
    obtain ⟨hm, ha⟩ := PushBack_cap_mono h
    exact ⟨hm, ha, (PushBack_caps h).1, (PushBack_caps h).2⟩
  · intro w a h
    obtain ⟨hm, ha⟩ := Emplace_cap_mono h
    exact ⟨hm, ha, (Emplace_caps h).1, (Emplace_caps h).2⟩
  · intro w a h
    unfold Vector.Insert at h
    exact Emplace_cap_mono h
  · intro w a h
    exact Erase_caps h
  · intro w a h
    exact PopBack_caps h
  · intro w a h
    exact CopyAssignNe_caps h

/-- Witness for C5 at a concrete input: `PushBack 7` on the full vector
`[3]` (size 1 = capacity 1) grows to capacity `max 1 (2*1) = 2` with
exactly one allocation. -/
theorem C5_amended_witness :
    Vector.Capacity (⟨⟨[some 3]⟩, 1⟩ : Vector ℕ) ≤
        Vector.Capacity (⟨⟨[some 3, some 7]⟩, 2⟩ : Vector ℕ) ∧
      (1 : ℕ) ≤ 1 ∧
      (Vector.Capacity (⟨⟨[some 3]⟩, 1⟩ : Vector ℕ) =
          Vector.size_ (⟨⟨[some 3]⟩, 1⟩ : Vector ℕ) →
        Vector.Capacity (⟨⟨[some 3, some 7]⟩, 2⟩ : Vector ℕ) =
          max 1 (2 * Vector.Capacity (⟨⟨[some 3]⟩, 1⟩ : Vector ℕ)) ∧
          (1 : ℕ) = 1) ∧
      (Vector.Capacity (⟨⟨[some 3]⟩, 1⟩ : Vector ℕ) ≠
          Vector.size_ (⟨⟨[some 3]⟩, 1⟩ : Vector ℕ) →
        Vector.Capacity (⟨⟨[some 3, some 7]⟩, 2⟩ : Vector ℕ) =
          Vector.Capacity (⟨⟨[some 3]⟩, 1⟩ : Vector ℕ) ∧ (1 : ℕ) = 0) :=
  (C5_amended ℕ ⟨true, true⟩ id 0 7 ⟨⟨[some 3]⟩, 1⟩ ⟨⟨[]⟩, 0⟩ 0 0).2.2.1
    ⟨⟨[some 3, some 7]⟩, 2⟩ 1 rfl

theorem take_eq_of_getElem? {a b : Buf α} {n : ℕ}
    (h : ∀ j, j < n → a[j]? = b[j]?) (ha : n ≤ a.length)
    (hb : n ≤ b.length) : a.take n = b.take n := by
  apply List.ext_getElem?
  intro j
  by_cases hj : j < n
  · rw [List.getElem?_take_of_lt hj, List.getElem?_take_of_lt hj, h j hj]
  · have ha2 : (a.take n)[j]? = none := by
      rw [List.getElem?_eq_none]
      rw [List.length_take]
      omega
    have hb2 : (b.take n)[j]? = none := by
      rw [List.getElem?_eq_none]
      rw [List.length_take]
      omega
    rw [ha2, hb2]

/-- C7.  Copy assignment between distinct vectors: the left side ends
element-wise equal to the right with equal size.  When `rhs.size_` exceeds
the left capacity, a full copy is built and swapped in, so the new capacity
is exactly `rhs.size_` (a reallocation); and under the exception model any
throw during that copy propagates with the left side untouched (the strong
guarantee, second conjunct).  Otherwise the overlapping prefix is
copy-assigned and the excess tail destroyed (shrinking) or copy-constructed
(growing), with the capacity unchanged and no allocation at all. -/
theorem C7_CopyAssign_correct (α : Type) (v rhs : Vector α) (o : ℕ → Bool)
    (k : ℕ) (h1 : v.WF) (h2 : rhs.WF) :
    (∃ w a, v.CopyAssignNe rhs = some (w, a) ∧
      w.contents = rhs.contents ∧ w.size_ = rhs.size_ ∧
      (v.Capacity < rhs.size_ → w.Capacity = rhs.size_) ∧
      (rhs.size_ ≤ v.Capacity → w.Capacity = v.Capacity ∧ a = 0)) ∧
    (v.Capacity < rhs.size_ →
      ∀ s k2, v.CopyAssignExcNe o rhs k = ExcOut.thrown s k2 → s = v) := by
  constructor
  · by_cases hlt : v.Capacity < rhs.size_
    · have hsrc : ∀ i, i < rhs.size_ →
          ∃ x, rhs.slots[0 + i]? = some (some x) := by
        intro i hi
        rw [Nat.zero_add]
        exact h2.live i hi
      obtain ⟨d2, hrun, hdlen, hdchar⟩ :=
        @uninitCopyN_spec _ rhs.slots 0 rhs.size_
          (List.replicate rhs.size_ none) 0 hsrc
          (by rw [List.length_replicate]; omega)
      have hcc : Vector.CopyCtor rhs =
          some (⟨⟨d2⟩, rhs.size_⟩, (RawMemory.alloc α rhs.size_).2) := by
        unfold Vector.CopyCtor
        rw [show (RawMemory.alloc α rhs.size_).1.buffer_ =
          List.replicate rhs.size_ none from rfl, hrun]
      obtain ⟨b, hbrun, hblen, hbchar⟩ :=
        @destroyN_spec _ v.slots 0 v.size_
          (by have := h1.size_le; omega)
          (by
            intro j hj0 hj
            exact h1.live j (by omega))
      refine ⟨⟨⟨d2⟩, rhs.size_⟩, (RawMemory.alloc α rhs.size_).2, ?_, ?_,
        rfl, ?_, ?_⟩
      · unfold Vector.CopyAssignNe
        rw [if_pos hlt]
        simp only [hcc, hbrun]
      · show d2.take rhs.size_ = rhs.slots.take rhs.size_
        apply take_eq_of_getElem?
        · intro j hj
          rw [hdchar j, if_pos (by omega : 0 ≤ j ∧ j < 0 + rhs.size_),
            show 0 + (j - 0) = j by omega]
        · rw [hdlen, List.length_replicate]
        · exact h2.size_le
      · intro _
        show d2.length = rhs.size_
        rw [hdlen, List.length_replicate]
      · intro hle
        exact absurd hle (by omega)
    · have hge : rhs.size_ ≤ v.Capacity := Nat.le_of_not_lt hlt
      have hminsrc : ∀ i, i < min v.size_ rhs.size_ →
          ∃ x, rhs.slots[0 + i]? = some (some x) := by
        intro i hi
        rw [Nat.zero_add]
        exact h2.live i (lt_of_lt_of_le hi (Nat.min_le_right _ _))
      have hmindst : ∀ i, i < min v.size_ rhs.size_ →
          ∃ y, v.slots[0 + i]? = some (some y) := by
        intro i hi
        rw [Nat.zero_add]
        exact h1.live i (lt_of_lt_of_le hi (Nat.min_le_left _ _))
      obtain ⟨b1, hrun1, hlen1, hchar1⟩ := assignRangeN_spec hminsrc hmindst
      have hcl : v.Capacity = v.slots.length := cap_eq_len v
      by_cases hsz : rhs.size_ < v.size_
      · obtain ⟨b2, hrun2, hlen2, hchar2⟩ :=
          @destroyN_spec _ b1 rhs.size_ (v.size_ - rhs.size_)
            (by rw [hlen1]; have := h1.size_le; omega)
            (by
              intro j hj0 hj
              rw [hchar1 j, if_neg (by omega)]
              exact h1.live j (by omega))
        refine ⟨⟨⟨b2⟩, rhs.size_⟩, 0, ?_, ?_, rfl, ?_, ?_⟩
        · unfold Vector.CopyAssignNe
          rw [if_neg (by omega)]
          simp only [hrun1]
          rw [if_pos hsz]
          simp only [hrun2]
        · show b2.take rhs.size_ = rhs.slots.take rhs.size_
          apply take_eq_of_getElem?
          · intro j hj
            rw [hchar2 j, if_neg (by omega), hchar1 j,
              if_pos (by omega : 0 ≤ j ∧ j < 0 + min v.size_ rhs.size_),
              show 0 + (j - 0) = j by omega]
          · rw [hlen2, hlen1]
            omega
          · exact h2.size_le
        · intro hc
          exact absurd hc (by omega)
        · intro _
          refine ⟨?_, rfl⟩
          show b2.length = v.Capacity
          rw [hlen2, hlen1]
          omega
      · obtain ⟨b2, hrun2, hlen2, hchar2⟩ :=
          @uninitCopyN_spec _ rhs.slots v.size_ (rhs.size_ - v.size_) b1
            v.size_
            (by
              intro i hi
              exact h2.live (v.size_ + i) (by omega))
            (by rw [hlen1]; omega)
        refine ⟨⟨⟨b2⟩, rhs.size_⟩, 0, ?_, ?_, rfl, ?_, ?_⟩
        · unfold Vector.CopyAssignNe
          rw [if_neg (by omega)]
          simp only [hrun1]
          rw [if_neg hsz]
          simp only [hrun2]
        · show b2.take rhs.size_ = rhs.slots.take rhs.size_
          apply take_eq_of_getElem?
          · intro j hj
            by_cases hjv : j < v.size_
            · rw [hchar2 j, if_neg (by omega), hchar1 j,
                if_pos (by omega : 0 ≤ j ∧ j < 0 + min v.size_ rhs.size_),
                show 0 + (j - 0) = j by omega]
            · rw [hchar2 j, if_pos (by omega),
                show v.size_ + (j - v.size_) = j by omega]
          · rw [hlen2, hlen1]
            omega
          · exact h2.size_le
        · intro hc
          exact absurd hc (by omega)
        · intro _
          refine ⟨?_, rfl⟩
          show b2.length = v.Capacity
          rw [hlen2, hlen1]
          omega
  · intro hlt s k2 hth
    unfold Vector.CopyAssignExcNe at hth
    rw [if_pos hlt] at hth
    split at hth
    · injection hth with ha hb
      exact ha.symm
    · split at hth
      · injection hth with ha hb
        exact ha.symm
      · split at hth
        · exact ExcOut.noConfusion hth
        · exact ExcOut.noConfusion hth
      · exact ExcOut.noConfusion hth

theorem uninitMoveExcN_infallible {mv : α → α} {o : ℕ → Bool} {src : Buf α}
    {s0 n : ℕ} {dst : Buf α} {d0 k : ℕ} {e : Buf α × ℕ}
    (h : uninitMoveExcN mv o false src s0 n dst d0 k = some (.error e)) :
    False := by
  induction n generalizing src s0 dst d0 k with
  | zero =>
    simp only [uninitMoveExcN] at h
    injection h with h
    exact Except.noConfusion h
  | succ m ih =>
    simp only [uninitMoveExcN, Bool.false_and, Bool.false_eq_true,
      if_false] at h
    split at h
    · split at h
      · exact ih h
      · exact Option.noConfusion h
    · exact Option.noConfusion h

theorem safe_useMove_nothrow {t : Traits}
    (hsafe : t.nothrowMove = true ∨ t.copyable = true)
    (hu : t.useMove = true) : t.nothrowMove = true := by
  rcases hsafe with h1 | h1
  · exact h1
  · unfold Traits.useMove at hu
    rw [h1] at hu
    simpa using hu

theorem ReallocateExc_error_state {t : Traits} {mv : α → α} {o : ℕ → Bool}
    {v : Vector α} {newBuf : Buf α} {k : ℕ} {s2 : Buf α} {k2 : ℕ}
    (hsafe : t.nothrowMove = true ∨ t.copyable = true)
    (h : v.ReallocateExc t mv o newBuf k = some (.error (s2, k2))) :
    s2 = v.slots := by
  unfold Vector.ReallocateExc at h
  split at h
  · next hu =>
    have hnm := safe_useMove_nothrow hsafe hu
    rw [hnm] at h
    simp only [Bool.not_true] at h
    exact (uninitMoveExcN_infallible h).elim
  · split at h
    · injection h with h
      exact Except.noConfusion h
    · simp only [Option.some.injEq, Except.error.injEq, Prod.mk.injEq] at h
      exact h.1.symm
    · exact Option.noConfusion h

theorem ReserveExc_thrown {t : Traits} {mv : α → α} {o : ℕ → Bool}
    {v s : Vector α} {n k k2 : ℕ}
    (hsafe : t.nothrowMove = true ∨ t.copyable = true)
    (h : v.ReserveExc t mv o n k = ExcOut.thrown s k2) : s = v := by
  unfold Vector.ReserveExc at h
  split at h
  · exact ExcOut.noConfusion h
  · split at h
    · injection h with ha hb
      exact ha.symm
    · split at h
      · next s3 k3 heq =>
        injection h with ha hb
        rw [← ha, ReallocateExc_error_state hsafe heq]
        rfl
      · split at h
        · exact ExcOut.noConfusion h
        · exact ExcOut.noConfusion h
      · exact ExcOut.noConfusion h

theorem PushBackExc_thrown {t : Traits} {mv : α → α} {o : ℕ → Bool}
    {v s : Vector α} {x : α} {k k2 : ℕ}
    (hsafe : t.nothrowMove = true ∨ t.copyable = true)
    (h : v.PushBackExc t mv o x k = ExcOut.thrown s k2) : s = v := by
  unfold Vector.PushBackExc at h
  split at h
  · split at h
    · injection h with ha hb
      exact ha.symm
    · split at h
      · injection h with ha hb
        exact ha.symm
      · split at h
        · split at h
          · next s3 k3 heq =>
            injection h with ha hb
            rw [← ha, ReallocateExc_error_state hsafe heq]
            rfl
          · split at h
            · exact ExcOut.noConfusion h
            · exact ExcOut.noConfusion h
          · exact ExcOut.noConfusion h
        · exact ExcOut.noConfusion h
  · split at h
    · injection h with ha hb
      exact ha.symm
    · split at h
      · exact ExcOut.noConfusion h
      · exact ExcOut.noConfusion h

theorem PushBackMoveExc_thrown {t : Traits} {mv : α → α} {o : ℕ → Bool}
    {v s : Vector α} {x : α} {k k2 : ℕ}
    (hsafe : t.nothrowMove = true ∨ t.copyable = true)
    (h : v.PushBackMoveExc t mv o x k = ExcOut.thrown s k2) : s = v := by
  unfold Vector.PushBackMoveExc at h
  split at h
  · split at h
    · injection h with ha hb
      exact ha.symm
    · split at h
      · injection h with ha hb
        exact ha.symm
      · split at h
        · split at h
          · next s3 k3 heq =>
            injection h with ha hb
            rw [← ha, ReallocateExc_error_state hsafe heq]
            rfl
          · split at h
            · exact ExcOut.noConfusion h
            · exact ExcOut.noConfusion h
          · exact ExcOut.noConfusion h
        · exact ExcOut.noConfusion h
  · split at h
    · injection h with ha hb
      exact ha.symm
    · split at h
      · exact ExcOut.noConfusion h
      · exact ExcOut.noConfusion h

theorem EmplaceBackExc_thrown {t : Traits} {mv : α → α} {o : ℕ → Bool}
    {v s : Vector α} {x : α} {k k2 : ℕ}
    (hsafe : t.nothrowMove = true ∨ t.copyable = true)
    (h : v.EmplaceBackExc t mv o x k = ExcOut.thrown s k2) : s = v := by
  unfold Vector.EmplaceBackExc at h
  split at h
  · split at h
    · injection h with ha hb
      exact ha.symm
    · split at h
      · injection h with ha hb
        exact ha.symm
      · split at h
        · split at h
          · next s3 k3 heq =>
            injection h with ha hb
            rw [← ha, ReallocateExc_error_state hsafe heq]
            rfl
          · split at h
            · exact ExcOut.noConfusion h
            · exact ExcOut.noConfusion h
          · exact ExcOut.noConfusion h
        · exact ExcOut.noConfusion h
  · split at h
    · injection h with ha hb
      exact ha.symm
    · split at h
      · exact ExcOut.noConfusion h
      · exact ExcOut.noConfusion h

theorem EmplaceExc_thrown {t : Traits} {mv : α → α} {o : ℕ → Bool}
    {v s : Vector α} {p : ℕ} {x : α} {k k2 : ℕ}
    (hsafe : t.nothrowMove = true ∨ t.copyable = true)
    (htrig : v.Capacity = v.size_)
    (h : v.EmplaceExc t mv o p x k = ExcOut.thrown s k2) : s = v := by
  unfold Vector.EmplaceExc at h
  rw [if_pos htrig] at h
  split at h
  · injection h with ha hb
    exact ha.symm
  · split at h
    · injection h with ha hb
      exact ha.symm
    · split at h
      · split at h
        · next hu =>
          have hnm := safe_useMove_nothrow hsafe hu
          rw [hnm] at h
          simp only [Bool.not_true] at h
          split at h
          · next s3 k3 heq =>
            exact (uninitMoveExcN_infallible heq).elim
          · split at h
            · next s3 k3 heq2 =>
              exact (uninitMoveExcN_infallible heq2).elim
            · split at h
              · exact ExcOut.noConfusion h
              · exact ExcOut.noConfusion h
            · exact ExcOut.noConfusion h
          · exact ExcOut.noConfusion h
        · split at h
          · injection h with ha hb
            exact ha.symm
          · split at h
            · injection h with ha hb
              exact ha.symm
            · split at h
              · exact ExcOut.noConfusion h
              · exact ExcOut.noConfusion h
            · exact ExcOut.noConfusion h
          · exact ExcOut.noConfusion h
      · exact ExcOut.noConfusion h

/-- C4 counterexample.  For an element type whose move construction can
throw and that is not copy-constructible (`Traits ⟨false, false⟩`, residue
value 99), `Reserve 3` on the vector `[3, 4]` fails at the second move
after the first element has already been moved from: the exception
propagates with the vector's element values changed, refuting the claim
that any failure before the final swap leaves size, capacity and element
values exactly as before. -/
theorem C4_counterexample_throwing_move :
    RunGrowthExc ⟨false, false⟩ (fun _ => 99) (fun j => decide (j < 2))
        (⟨⟨[some 3, some 4]⟩, 2⟩ : Vector ℕ) (.reserveOp 3) 0 =
      ExcOut.thrown ⟨⟨[some 99, some 4]⟩, 2⟩ 3 ∧
      (⟨⟨[some 99, some 4]⟩, 2⟩ : Vector ℕ) ≠ ⟨⟨[some 3, some 4]⟩, 2⟩ :=
  ⟨rfl, by decide⟩

/-- C4 (amended).  For every growth-triggering operation (`Reserve`, and
the PushBack/EmplaceBack/Emplace family when `size == capacity`), provided
the element transfer cannot be a throwing move — i.e. move construction is
`noexcept` or the type is copy-constructible, so the `if constexpr`
dispatch selects either non-failing moves or copies — any exception raised
before the final arena swap (allocation failure or a failed element
construction) propagates with the vector's size, capacity and element
values exactly as they were before the call. -/
theorem C4_amended (α : Type) (t : Traits) (mv : α → α) (o : ℕ → Bool)
    (v s : Vector α) (op : GrowthOp α) (k k2 : ℕ)
    (hsafe : t.nothrowMove = true ∨ t.copyable = true)
    (htrig : op.triggers v)
    (h : RunGrowthExc t mv o v op k = ExcOut.thrown s k2) : s = v := by
  cases op with
  | reserveOp n => exact ReserveExc_thrown hsafe h
  | pushBackOp x => exact PushBackExc_thrown hsafe h
  | pushBackMoveOp x => exact PushBackMoveExc_thrown hsafe h
  | emplaceBackOp x => exact EmplaceBackExc_thrown hsafe h
  | emplaceOp p x => exact EmplaceExc_thrown hsafe htrig h

/-- Witness for C4 at a concrete input: a nothrow-movable, copyable type,
`Reserve 2` on the vector `[1]` with an oracle that fails the allocation:
the thrown state equals the original vector. -/
theorem C4_amended_witness :
    RunGrowthExc (⟨true, true⟩ : Traits) (id : ℕ → ℕ) (fun _ => false)
        (⟨⟨[some 1]⟩, 1⟩ : Vector ℕ) (.reserveOp 2) 0 =
      ExcOut.thrown ⟨⟨[some 1]⟩, 1⟩ 1 ∧
      (⟨⟨[some 1]⟩, 1⟩ : Vector ℕ) = ⟨⟨[some 1]⟩, 1⟩ :=
  ⟨rfl, C4_amended ℕ ⟨true, true⟩ id (fun _ => false) ⟨⟨[some 1]⟩, 1⟩
    ⟨⟨[some 1]⟩, 1⟩ (.reserveOp 2) 0 1 (Or.inl rfl) trivial rfl⟩

/-- C6.  The growth transfer `Vector::Reallocate` (lines 318-325) picks its
branch by the compile-time condition
`std::is_nothrow_move_constructible_v<T> || !std::is_copy_constructible_v<T>`:
the branch flag equals that formula of the element type's traits alone
(independently of any runtime state), move construction is used exactly when
it holds and copy construction otherwise, the copy branch leaves the old
elements untouched until the transfer completes, and either branch places
the values of slots `[0, size_)` unchanged into the new block. -/
theorem C6_transfer_dispatch (α : Type) (t : Traits) (mv : α → α)
    (v : Vector α) (newBuf : Buf α) (h1 : v.WF)
    (h2 : v.size_ ≤ newBuf.length) :
    ∃ s2 d2 fl, v.Reallocate t mv newBuf = some (s2, d2, fl) ∧
      fl = (t.nothrowMove || !t.copyable) ∧
      (fl = false → s2 = v.slots) ∧
      (∀ j, j < v.size_ → d2[j]? = v.slots[j]?) := by
  have hsrc : ∀ i, i < v.size_ → ∃ x, v.slots[0 + i]? = some (some x) := by
    intro i hi
    rw [Nat.zero_add]
    exact h1.live i hi
  by_cases hu : t.useMove = true
  · obtain ⟨s2, d2, hrun, hsl, hdl, hdchar, hschar⟩ :=
      @uninitMoveN_spec _ mv v.slots 0 v.size_ newBuf 0 hsrc (by omega)
    refine ⟨s2, d2, true, ?_, hu.symm, ?_, ?_⟩
    · unfold Vector.Reallocate
      rw [if_pos hu, hrun]
    · intro hfl
      exact Bool.noConfusion hfl
    · intro j hj
      rw [hdchar j, if_pos (by omega : 0 ≤ j ∧ j < 0 + v.size_),
        show 0 + (j - 0) = j by omega]
  · obtain ⟨d2, hrun, hdl, hdchar⟩ :=
      @uninitCopyN_spec _ v.slots 0 v.size_ newBuf 0 hsrc (by omega)
    have hu2 : t.useMove = false := by
      rwa [Bool.not_eq_true] at hu
    refine ⟨v.slots, d2, false, ?_, hu2.symm, fun _ => rfl, ?_⟩
    · unfold Vector.Reallocate
      rw [if_neg hu, hrun]
    · intro j hj
      rw [hdchar j, if_pos (by omega : 0 ≤ j ∧ j < 0 + v.size_),
        show 0 + (j - 0) = j by omega]

/-- Witness for C6 at a concrete input: a copy-constructible type whose move
construction may throw (`nothrowMove = false, copyable = true`), one live
element, a fresh block of two slots. -/
theorem C6_transfer_dispatch_witness :
    (⟨⟨[some 1]⟩, 1⟩ : Vector ℕ).WF ∧
      (1 : ℕ) ≤ ([none, none] : Buf ℕ).length ∧
      (∃ s2 d2 fl,
        (⟨⟨[some 1]⟩, 1⟩ : Vector ℕ).Reallocate ⟨false, true⟩ id
            [none, none] = some (s2, d2, fl) ∧
          fl = ((⟨false, true⟩ : Traits).nothrowMove ||
            !(⟨false, true⟩ : Traits).copyable) ∧
          (fl = false → s2 = (⟨⟨[some 1]⟩, 1⟩ : Vector ℕ).slots) ∧
          (∀ j, j < (⟨⟨[some 1]⟩, 1⟩ : Vector ℕ).size_ →
            d2[j]? = (⟨⟨[some 1]⟩, 1⟩ : Vector ℕ).slots[j]?)) :=
  ⟨by decide, by decide,
    C6_transfer_dispatch ℕ ⟨false, true⟩ id ⟨⟨[some 1]⟩, 1⟩ [none, none]
      (by decide) (by decide)⟩

/-- Witness for C7 at a concrete input: assigning a size-3 vector into a
size-1, capacity-2 vector (the reallocating branch), with an oracle that
fails the very first event. -/
theorem C7_CopyAssign_correct_witness :
    (⟨⟨[some 1, none]⟩, 1⟩ : Vector ℕ).WF ∧
      (⟨⟨[some 8, some 9, some 10]⟩, 3⟩ : Vector ℕ).WF ∧
      ((∃ w a, Vector.CopyAssignNe (⟨⟨[some 1, none]⟩, 1⟩ : Vector ℕ)
            ⟨⟨[some 8, some 9, some 10]⟩, 3⟩ = some (w, a) ∧
          w.contents =
            Vector.contents (⟨⟨[some 8, some 9, some 10]⟩, 3⟩ : Vector ℕ) ∧
          w.size_ = Vector.size_ (⟨⟨[some 8, some 9, some 10]⟩, 3⟩ : Vector ℕ) ∧
          (Vector.Capacity (⟨⟨[some 1, none]⟩, 1⟩ : Vector ℕ) <
              Vector.size_ (⟨⟨[some 8, some 9, some 10]⟩, 3⟩ : Vector ℕ) →
            w.Capacity =
              Vector.size_ (⟨⟨[some 8, some 9, some 10]⟩, 3⟩ : Vector ℕ)) ∧
          (Vector.size_ (⟨⟨[some 8, some 9, some 10]⟩, 3⟩ : Vector ℕ) ≤
              Vector.Capacity (⟨⟨[some 1, none]⟩, 1⟩ : Vector ℕ) →
            w.Capacity = Vector.Capacity (⟨⟨[some 1, none]⟩, 1⟩ : Vector ℕ) ∧
              a = 0)) ∧
        (Vector.Capacity (⟨⟨[some 1, none]⟩, 1⟩ : Vector ℕ) <
            Vector.size_ (⟨⟨[some 8, some 9, some 10]⟩, 3⟩ : Vector ℕ) →
          ∀ s k2, Vector.CopyAssignExcNe (fun _ => false)
              (⟨⟨[some 1, none]⟩, 1⟩ : Vector ℕ)
              ⟨⟨[some 8, some 9, some 10]⟩, 3⟩ 0 = ExcOut.thrown s k2 →
            s = ⟨⟨[some 1, none]⟩, 1⟩)) :=
  ⟨by decide, by decide,
    C7_CopyAssign_correct ℕ ⟨⟨[some 1, none]⟩, 1⟩
      ⟨⟨[some 8, some 9, some 10]⟩, 3⟩ (fun _ => false) 0 (by decide)
      (by decide)⟩

end AdvVec
